import Mathlib

/-!
Verification of the pump-and-dump detection core of `pnd_moex`
(`pnd_moex/general/general.py` and `pnd_moex/util/other.py`).

The embedding models pandas/numpy float series as lists of `PF` values
(finite rationals, signed infinities, NaN — NaN also standing for a missing
slot, as in pandas).  Floating point numbers are idealised as exact
rationals; the inf/NaN propagation and comparison rules of IEEE arithmetic
that the code relies on (`NaN > c` is false, `+inf > c` is true,
`x / 0` is `±inf` or NaN) are modelled explicitly.

`Series.pct_change(periods=k)` is modelled after its pandas definition
(pandas 1.x, the era of this code base): the series is first
forward-filled (the default `fill_method="pad"`), then the element-wise
quotient with the `k`-shifted series minus 1 is taken.  `Series.shift(-k)`
drops the first `k` elements and pads the tail with NaN.

`anomaly_news_markup_func` is modelled at the level of the
business-day-resampled frame: positions `0..n-1` are consecutive business
days, the value column and the anomaly column are lists of optional values
(`none` = NaN), news events are positions (as integers, since a news date
may fall before or after the frame), and `BDay` arithmetic on positions is
integer arithmetic.  The `.index[0]` lookup on an empty selection raises
`IndexError` in Python; the embedding returns `none` for the whole call in
that case, `some marks` when the function returns normally.
-/

namespace PnD

/-- A pandas float cell: finite value, `+inf`, `-inf`, or NaN (also used
for a missing slot, as pandas stores missing float data as NaN). -/
inductive PF where
  | fin (q : ℚ)
  | pinf
  | ninf
  | nan
deriving DecidableEq

/-- `pd.isna` on a float cell. -/
def PF.isna : PF → Bool
  | .nan => true
  | _ => false

/-- A price series as a pandas float series (all slots present). -/
def toPF (ts : List ℚ) : List PF := ts.map PF.fin

/-- Forward fill with carried last observation `c` (`fillna(method="pad")`).
Leading NaNs (no previous observation) remain NaN via the carry `PF.nan`. -/
def ffillAux : PF → List PF → List PF
  | _, [] => []
  | c, x :: xs => if x.isna then c :: ffillAux c xs else x :: ffillAux x xs

/-- `Series.fillna(method="pad")`. -/
def ffill (s : List PF) : List PF := ffillAux PF.nan s

/-- `Series.shift(-k)`: drop the first `k` values, pad the tail with NaN,
keeping the length. -/
def shiftNeg (k : Nat) (s : List PF) : List PF :=
  s.drop k ++ List.replicate (min k s.length) PF.nan

/-- `a / b - 1` with IEEE semantics on the cells that actually occur in
these series (finite values and NaN): a zero divisor gives `±inf` or NaN
according to the sign of the numerator, NaN propagates. -/
def divSub1 : PF → PF → PF
  | .fin a, .fin b =>
      if b = 0 then (if 0 < a then .pinf else if a < 0 then .ninf else .nan)
      else .fin (a / b - 1)
  | _, _ => .nan

/-- `Series.pct_change(periods=k)` (pandas 1.x default `fill_method="pad"`):
forward fill, then element-wise `d[i] / d[i-k] - 1`, NaN for `i < k`. -/
def pct_change (k : Nat) (s : List PF) : List PF :=
  let d := ffill s
  (List.range s.length).map
    (fun i => if k ≤ i then divSub1 (d.getD i PF.nan) (d.getD (i - k) PF.nan) else PF.nan)

/-- Strict comparison of a float cell with a finite threshold, as numpy
evaluates `x > c`: false on NaN and `-inf`, true on `+inf`. -/
def gtB : PF → ℚ → Bool
  | .fin q, c => decide (c < q)
  | .pinf, _ => true
  | _, _ => false

/-- `pct_lag1 = ts.pct_change()` in `anomaly_detect`. -/
def pct_lag1 (ts : List ℚ) : List PF := pct_change 1 (toPF ts)

/-- `pct_lag2 = ts.shift(-1).pct_change()`. -/
def pct_lag2 (ts : List ℚ) : List PF := pct_change 1 (shiftNeg 1 (toPF ts))

/-- `pct_lag3 = ts.shift(-2).pct_change()`. -/
def pct_lag3 (ts : List ℚ) : List PF := pct_change 1 (shiftNeg 2 (toPF ts))

/-- `pct_over3 = ts.shift(-2).pct_change(periods=3)`. -/
def pct_over3 (ts : List ℚ) : List PF := pct_change 3 (shiftNeg 2 (toPF ts))

/-- The raw (pre-smear) boolean map of the `3over20` column:
`(np.array([pct_lag1, pct_lag2, pct_lag3]) > 0.2).all(axis=0)`. -/
def rawMap20 (ts : List ℚ) : List Bool :=
  (List.range ts.length).map
    (fun i => gtB ((pct_lag1 ts).getD i PF.nan) (1/5) &&
              gtB ((pct_lag2 ts).getD i PF.nan) (1/5) &&
              gtB ((pct_lag3 ts).getD i PF.nan) (1/5))

/-- The raw (pre-smear) boolean map of the `80over3` column:
`pct_over3 > 0.8`. -/
def rawMap80 (ts : List ℚ) : List Bool :=
  (List.range ts.length).map (fun i => gtB ((pct_over3 ts).getD i PF.nan) (4/5))

/-- `np.where(a_map == True)[0]`: the positions that are true in the raw
map, collected before any smearing. -/
def trueIds (m : List Bool) : List Nat :=
  (List.range m.length).filter (fun j => m.getD j false)

/-- One numpy slice assignment `a_map[id : id + 3] = True` (the slice is
clamped at the end of the array). -/
def setTrue3 (m : List Bool) (id : Nat) : List Bool :=
  (List.range m.length).map (fun j => if id ≤ j ∧ j < id + 3 then true else m.getD j false)

/-- The smear pass of `anomaly_detect`: all true positions of the raw map
are collected first, then each gets `a_map[id : id + 3] = True`. -/
def smear (m : List Bool) : List Bool := (trueIds m).foldl setTrue3 m

/-- The two rule-based columns of `anomaly_detect` (the optional
`quantile`/`persist`/`volatility` columns come from the external `adtk`
library and are outside the embedded core). -/
def anomaly_detect (ts : List ℚ) : List Bool × List Bool :=
  (smear (rawMap20 ts), smear (rawMap80 ts))

/-- The spec's claimed raw rule for `3over20` (claim C1): true at `i` iff
the day-over-day changes from `i` to `i+1`, `i+1` to `i+2` and `i+2` to
`i+3` are all defined and strictly greater than 0.20. -/
def spec3over20 (ts : List ℚ) (i : Nat) : Prop :=
  i + 3 < ts.length ∧
  (1/5 : ℚ) < (ts.getD (i+1) 0 - ts.getD i 0) / ts.getD i 0 ∧
  (1/5 : ℚ) < (ts.getD (i+2) 0 - ts.getD (i+1) 0) / ts.getD (i+1) 0 ∧
  (1/5 : ℚ) < (ts.getD (i+3) 0 - ts.getD (i+2) 0) / ts.getD (i+2) 0

/-- The spec's claimed raw rule for `80over3` (claim C2): with
`shifted[j] = ts[j+2]`, true at `i` iff
`(shifted[i+3] - shifted[i]) / shifted[i] > 0.80` is defined and holds. -/
def spec80over3 (ts : List ℚ) (i : Nat) : Prop :=
  i + 5 < ts.length ∧
  (4/5 : ℚ) < (ts.getD (i+5) 0 - ts.getD (i+2) 0) / ts.getD (i+2) 0

section Sequences

variable {α : Type}

/-- Division-free form of "the percent change from `b` to `a` exceeds 20 %"
exactly as the float comparison `(a / b - 1) > 0.2` evaluates, including the
zero and negative divisor cases (`+inf` compares true, NaN and `-inf` false). -/
def gt20 (a b : ℚ) : Bool :=
  if b = 0 then decide (0 < a)
  else if 0 < b then decide (6 * b < 5 * a) else decide (5 * a < 6 * b)

/-- Division-free form of `(a / b - 1) > 0.8` (see `gt20`). -/
def gt80 (a b : ℚ) : Bool :=
  if b = 0 then decide (0 < a)
  else if 0 < b then decide (9 * b < 5 * a) else decide (5 * a < 9 * b)

/-- State-machine form of the scanning while-loop of `find_all_sequences`
(`pnd_moex/util/other.py`): `i` is the current index, the state is `none`
when no run is open and `some s` when a run that started at `s` is open.
Closing a run at the first failing index `i` records `(s, i - 1)`, exactly
as the inner `while` of the source records the last satisfying index. -/
def fswalk (key : α → Bool) : List α → Nat → Option Nat → List (Nat × Nat)
  | [], _, none => []
  | [], i, some s => [(s, i - 1)]
  | x :: xs, i, none =>
      if key x then fswalk key xs (i+1) (some i) else fswalk key xs (i+1) none
  | x :: xs, i, some s =>
      if key x then fswalk key xs (i+1) (some s)
      else (s, i - 1) :: fswalk key xs (i+1) none

/-- `find_all_sequences(a, key)` with an explicit predicate. -/
def find_all_sequences (a : List α) (key : α → Bool) : List (Nat × Nat) :=
  fswalk key a 0 none

/-- The predicate applied at global index `j` when the unprocessed suffix
`l` starts at global index `i`; false outside the suffix. -/
def keyAt (key : α → Bool) (l : List α) (i j : Nat) : Bool :=
  (l[j - i]?).any key

/-- All properties of one closed run `p` returned by the scan of the
suffix `l` that starts at global index `i`: within bounds, satisfying the
predicate throughout, and maximal on both sides. -/
def RunOK (key : α → Bool) (l : List α) (i : ℕ) (p : ℕ × ℕ) : Prop :=
  i ≤ p.1 ∧ p.1 ≤ p.2 ∧ p.2 < i + l.length ∧
  (∀ j, p.1 ≤ j → j ≤ p.2 → keyAt key l i j = true) ∧
  (i < p.1 → keyAt key l i (p.1 - 1) = false) ∧
  (p.2 + 1 < i + l.length → keyAt key l i (p.2 + 1) = false)

/-- Properties of the head run produced while a run that started at `s`
(before the current suffix) is still open: it ends no earlier than `i - 1`,
the predicate holds from `i` through its end, and it is right-maximal. -/
def HeadRunOK (key : α → Bool) (l : List α) (i s : ℕ) (p : ℕ × ℕ) : Prop :=
  p.1 = s ∧ i - 1 ≤ p.2 ∧ p.2 < i + l.length ∧
  (∀ j, i ≤ j → j ≤ p.2 → keyAt key l i j = true) ∧
  (p.2 + 1 < i + l.length → keyAt key l i (p.2 + 1) = false)

/-- Ordering of runs by start index, the `key=lambda x: x[0]` of the
source's `result.sort`. -/
def startLE (p q : Nat × Nat) : Prop := p.1 ≤ q.1

instance : DecidableRel startLE := fun p q => inferInstanceAs (Decidable (p.1 ≤ q.1))

instance : IsTotal (Nat × Nat) startLE := ⟨fun p q => Nat.le_total p.1 q.1⟩

instance : IsTrans (Nat × Nat) startLE := ⟨fun _ _ _ h1 h2 => Nat.le_trans h1 h2⟩

/-- `find_all_sequences(a)` with the predicate omitted: for every distinct
value of `a`, that value's runs, merged and sorted by start index.  (The
Python `set(a)` iterates in an unspecified order; since the result is
sorted afterwards and runs of distinct values have distinct starts, any
enumeration of the distinct values — here `List.dedup` — yields the same
result.  The source's stable `list.sort` agrees with `insertionSort` on
keys without ties.) -/
def find_all_sequences_nokey [DecidableEq α] (a : List α) : List (Nat × Nat) :=
  (a.dedup.flatMap (fun v => find_all_sequences a (fun x => decide (x = v)))).insertionSort startLE

end Sequences

/-- The 10-business-day lookback window of a news event at position `p`:
the positions of `freqed_df.loc[news - BDay(10) : news]` (label slicing
clamps at both ends of the frame). -/
def window (n : Nat) (p : ℤ) : List Nat :=
  (List.range n).filter (fun (i : ℕ) => decide (p - 10 ≤ (i : ℤ)) && decide ((i : ℤ) ≤ p))

/-- Python truthiness of an anomaly cell as tested by
`any(selected_df["anomaly"])`: `True`/`False` by value, NaN is truthy. -/
def truthy : Option Bool → Bool
  | none => true
  | some b => b

/-- `freqed_df.loc[idx[a] : idx[b], "mark"] = v` as a positional range
assignment (positions outside `0..n-1` are clamped away by the slice). -/
def setRangeI (m : List ℤ) (a b : ℤ) (v : ℤ) : List ℤ :=
  (List.range m.length).map (fun (j : ℕ) => if a ≤ (j : ℤ) ∧ (j : ℤ) ≤ b then v else m.getD j 0)

/-- The ±3 business-day expansion of a run, exactly as written in the
source: `(x[0] - 3 if x[0] > 3 else 0, x[1] + 3 if x[1] < n - 3 else n - 1)`. -/
def expandRun (n : Nat) (p : Nat × Nat) : Nat × Nat :=
  (if 3 < p.1 then p.1 - 3 else 0, if p.2 + 3 < n then p.2 + 3 else n - 1)

/-- `lambda x: x is True` on an anomaly cell. -/
def anKey (o : Option Bool) : Bool := o == some true

/-- `lambda x: np.isnan(x)` on a value cell. -/
def naKey (o : Option ℚ) : Bool := o.isNone

/-- `a_n_list` before expansion: the anomaly-true runs followed by the
missing-value runs. -/
def runsAN (val : List (Option ℚ)) (anomaly : List (Option Bool)) : List (Nat × Nat) :=
  find_all_sequences anomaly anKey ++ find_all_sequences val naKey

/-- The invalid-marking pass: initialise every mark to 0, expand every
anomaly/missing run by 3 business days each side, sort by start, and
assign `na_mark` over each expanded run. -/
def invalidPass (val : List (Option ℚ)) (anomaly : List (Option Bool)) (na : ℤ) : List ℤ :=
  ((((runsAN val anomaly).map (expandRun val.length)).insertionSort startLE).foldl
    (fun m pr => setRangeI m (pr.1 : ℤ) (pr.2 : ℤ) na) (List.replicate val.length 0))

/-- Processing of one news event at position `p`.  Returns `none` when the
Python code would raise `IndexError` (`.index[0]` on an empty selection:
every truthy cell of the window is a NaN, none is `True`). -/
def processNews (val : List (Option ℚ)) (anomaly : List (Option Bool)) (mark_period : Bool)
    (m : List ℤ) (p : ℤ) : Option (List ℤ) :=
  let w := window val.length p
  if w.any (fun i => (val.getD i none).isNone) then some m
  else if w.any (fun i => truthy (anomaly.getD i none)) then
    match w.find? (fun i => anomaly.getD i none == some true) with
    | some fa => some (if mark_period then setRangeI m ((fa : ℤ) - 7) ((fa : ℤ) + 5) 1
                       else m.set fa 1)
    | none => none
  else some m

/-- The mark column produced by `anomaly_news_markup_func` on the
business-day-resampled frame: the invalid-marking pass followed by the
news pass.  `some marks` when the Python function returns, `none` when it
raises. -/
def anomaly_news_markup (val : List (Option ℚ)) (anomaly : List (Option Bool)) (news : List ℤ)
    (mark_period : Bool) (na : ℤ) : Option (List ℤ) :=
  news.foldlM (processNews val anomaly mark_period) (invalidPass val anomaly na)

/-! ### The sequence finder: soundness, maximality, order, completeness -/

section SequenceLemmas

variable {α : Type} (key : α → Bool)

theorem keyAt_cons_self (x : α) (xs : List α) (i : ℕ) :
    keyAt key (x :: xs) i i = key x := by
  simp [keyAt]

theorem keyAt_cons_succ (x : α) (xs : List α) (i j : ℕ) (h : i + 1 ≤ j) :
    keyAt key (x :: xs) i j = keyAt key xs (i + 1) j := by
  unfold keyAt
  rw [show j - i = (j - (i + 1)) + 1 by omega, List.getElem?_cons_succ]

theorem RunOK_cons (x : α) (xs : List α) (i : ℕ) (p : ℕ × ℕ)
    (h : RunOK key xs (i + 1) p) (hx : p.1 = i + 1 → key x = false) :
    RunOK key (x :: xs) i p := by
  obtain ⟨h1, h2, h3, h4, h5, h6⟩ := h
  refine ⟨by omega, h2, by simp only [List.length_cons]; omega, ?_, ?_, ?_⟩
  · intro j hj1 hj2
    rw [keyAt_cons_succ key x xs i j (by omega)]
    exact h4 j hj1 hj2
  · intro hlt
    rcases Nat.lt_or_ge (i + 1) p.1 with hgt | hle
    · rw [keyAt_cons_succ key x xs i (p.1 - 1) (by omega)]
      exact h5 hgt
    · have hp1 : p.1 = i + 1 := by omega
      rw [hp1]
      show keyAt key (x :: xs) i i = false
      rw [keyAt_cons_self]
      exact hx hp1
  · intro hlt
    rw [keyAt_cons_succ key x xs i (p.2 + 1) (by omega)]
    exact h6 (by simp only [List.length_cons] at hlt; omega)

theorem fswalk_sound :
    ∀ (l : List α) (i : ℕ) (st : Option ℕ), (∀ s, st = some s → s < i) →
      ∀ p : ℕ × ℕ, p ∈ fswalk key l i st →
      (match st with
       | none => RunOK key l i p
       | some s => HeadRunOK key l i s p ∨ (RunOK key l i p ∧ i < p.1)) := by
  intro l
  induction l with
  | nil =>
    intro i st hst p hp
    cases st with
    | none => simp [fswalk] at hp
    | some s =>
      simp only [fswalk, List.mem_singleton] at hp
      subst hp
      have hsi : s < i := hst s rfl
      exact Or.inl ⟨rfl, le_refl _, by simp; omega,
        fun j hj1 hj2 => by exfalso; omega,
        fun h => by simp only [List.length_nil, Nat.add_zero] at h; omega⟩
  | cons x xs ih =>
    intro i st hst p hp
    cases st with
    | none =>
      by_cases hkey : key x = true
      · simp only [fswalk, if_pos hkey] at hp
        have hres := ih (i + 1) (some i) (by intro s hs; cases hs; omega) p hp
        rcases hres with hhead | ⟨hrun, hgt⟩
        · obtain ⟨hp1, hp2, hp3, hp4, hp5⟩ := hhead
          refine ⟨by omega, by omega, by simp only [List.length_cons]; omega, ?_, ?_, ?_⟩
          · intro j hj1 hj2
            rcases Nat.lt_or_ge j (i + 1) with hj | hj
            · have hje : j = i := by omega
              subst hje
              rw [keyAt_cons_self]
              exact hkey
            · rw [keyAt_cons_succ _ _ _ _ _ hj]
              exact hp4 j hj hj2
          · intro h
            exfalso
            omega
          · intro h
            rw [keyAt_cons_succ _ _ _ _ _ (by omega)]
            exact hp5 (by simp only [List.length_cons] at h; omega)
        · exact RunOK_cons key x xs i p hrun (fun h => by omega)
      · have hkf : key x = false := by rwa [Bool.not_eq_true] at hkey
        simp only [fswalk, if_neg hkey] at hp
        have hres := ih (i + 1) none (by intro s hs; cases hs) p hp
        exact RunOK_cons key x xs i p hres (fun _ => hkf)
    | some s =>
      have hsi : s < i := hst s rfl
      by_cases hkey : key x = true
      · simp only [fswalk, if_pos hkey] at hp
        have hres := ih (i + 1) (some s) (by intro t ht; cases ht; omega) p hp
        rcases hres with hhead | ⟨hrun, hgt⟩
        · left
          obtain ⟨hp1, hp2, hp3, hp4, hp5⟩ := hhead
          refine ⟨hp1, by omega, by simp only [List.length_cons]; omega, ?_, ?_⟩
          · intro j hj1 hj2
            rcases Nat.lt_or_ge j (i + 1) with hj | hj
            · have hje : j = i := by omega
              subst hje
              rw [keyAt_cons_self]
              exact hkey
            · rw [keyAt_cons_succ _ _ _ _ _ hj]
              exact hp4 j hj hj2
          · intro h
            rw [keyAt_cons_succ _ _ _ _ _ (by omega)]
            exact hp5 (by simp only [List.length_cons] at h; omega)
        · right
          exact ⟨RunOK_cons key x xs i p hrun (fun h => by omega), by omega⟩
      · have hkf : key x = false := by rwa [Bool.not_eq_true] at hkey
        simp only [fswalk, if_neg hkey] at hp
        rcases List.mem_cons.mp hp with hph | hpt
        · left
          subst hph
          refine ⟨rfl, le_refl _, by simp only [List.length_cons]; omega, ?_, ?_⟩
          · intro j hj1 hj2
            exfalso
            omega
          · intro h
            show keyAt key (x :: xs) i (i - 1 + 1) = false
            rw [show i - 1 + 1 = i by omega, keyAt_cons_self]
            exact hkf
        · right
          have hres := ih (i + 1) none (by intro t ht; cases ht) p hpt
          exact ⟨RunOK_cons key x xs i p hres (fun _ => hkf), by
            have := hres.1
            omega⟩

/-- While a run is open, the output always contains a head run starting at
`s` and ending no earlier than `i - 1`. -/
theorem fswalk_head_run :
    ∀ (l : List α) (i s : ℕ), ∃ p ∈ fswalk key l i (some s), p.1 = s ∧ i - 1 ≤ p.2 := by
  intro l
  induction l with
  | nil =>
    intro i s
    exact ⟨(s, i - 1), by simp [fswalk], rfl, le_refl _⟩
  | cons x xs ih =>
    intro i s
    by_cases hkey : key x = true
    · obtain ⟨p, hp, h1, h2⟩ := ih (i + 1) s
      exact ⟨p, by simp only [fswalk, if_pos hkey]; exact hp, h1, by omega⟩
    · refine ⟨(s, i - 1), ?_, rfl, le_refl _⟩
      simp only [fswalk, if_neg hkey]
      exact List.mem_cons_self _ _

/-- Completeness: every in-range position satisfying the predicate is
covered by some returned run. -/
theorem fswalk_complete :
    ∀ (l : List α) (i : ℕ) (st : Option ℕ), (∀ s, st = some s → s ≤ i) →
      ∀ j, i ≤ j → j < i + l.length → keyAt key l i j = true →
      ∃ p ∈ fswalk key l i st, p.1 ≤ j ∧ j ≤ p.2 := by
  intro l
  induction l with
  | nil =>
    intro i st hst j hj1 hj2 hkey
    exfalso
    simp only [List.length_nil, Nat.add_zero] at hj2
    omega
  | cons x xs ih =>
    intro i st hst j hj1 hj2 hkey
    rcases Nat.lt_or_ge j (i + 1) with hj | hj
    · have hje : j = i := by omega
      subst hje
      rw [keyAt_cons_self] at hkey
      cases st with
      | none =>
        obtain ⟨p, hp, h1, h2⟩ := fswalk_head_run key xs (j + 1) j
        refine ⟨p, ?_, by omega, by omega⟩
        simp only [fswalk, if_pos hkey]
        exact hp
      | some s =>
        have hsi : s ≤ j := hst s rfl
        obtain ⟨p, hp, h1, h2⟩ := fswalk_head_run key xs (j + 1) s
        refine ⟨p, ?_, by omega, by omega⟩
        simp only [fswalk, if_pos hkey]
        exact hp
    · rw [keyAt_cons_succ _ _ _ _ _ hj] at hkey
      have hj2' : j < (i + 1) + xs.length := by
        simp only [List.length_cons] at hj2
        omega
      cases st with
      | none =>
        by_cases hkx : key x = true
        · obtain ⟨p, hp, h1, h2⟩ :=
            ih (i + 1) (some i) (by intro t ht; cases ht; omega) j hj hj2' hkey
          exact ⟨p, by simp only [fswalk, if_pos hkx]; exact hp, h1, h2⟩
        · obtain ⟨p, hp, h1, h2⟩ :=
            ih (i + 1) none (by intro t ht; cases ht) j hj hj2' hkey
          exact ⟨p, by simp only [fswalk, if_neg hkx]; exact hp, h1, h2⟩
      | some s =>
        by_cases hkx : key x = true
        · obtain ⟨p, hp, h1, h2⟩ :=
            ih (i + 1) (some s) (by intro t ht; cases ht; exact (hst s rfl).trans (by omega))
              j hj hj2' hkey
          exact ⟨p, by simp only [fswalk, if_pos hkx]; exact hp, h1, h2⟩
        · obtain ⟨p, hp, h1, h2⟩ :=
            ih (i + 1) none (by intro t ht; cases ht) j hj hj2' hkey
          exact ⟨p, by simp only [fswalk, if_neg hkx]; exact List.mem_cons_of_mem _ hp, h1, h2⟩

/-- The returned runs are strictly ordered: each ends before the next
starts. -/
theorem fswalk_pairwise :
    ∀ (l : List α) (i : ℕ) (st : Option ℕ),
      (fswalk key l i st).Pairwise (fun p q => p.2 < q.1) := by
  intro l
  induction l with
  | nil =>
    intro i st
    cases st <;> simp [fswalk]
  | cons x xs ih =>
    intro i st
    cases st with
    | none =>
      by_cases hkx : key x = true
      · simp only [fswalk, if_pos hkx]
        exact ih (i + 1) (some i)
      · simp only [fswalk, if_neg hkx]
        exact ih (i + 1) none
    | some s =>
      by_cases hkx : key x = true
      · simp only [fswalk, if_pos hkx]
        exact ih (i + 1) (some s)
      · simp only [fswalk, if_neg hkx]
        refine List.pairwise_cons.mpr ⟨?_, ih (i + 1) none⟩
        intro q hq
        have hq1 := (fswalk_sound key xs (i + 1) none (by intro t ht; cases ht) q hq).1
        show (s, i - 1).2 < q.1
        simp only
        omega

end SequenceLemmas

/-! ### Basic lemmas about the embedded operations -/

theorem getD_map_range {β : Type} (f : ℕ → β) (n j : ℕ) (d : β) :
    ((List.range n).map f).getD j d = if j < n then f j else d := by
  rcases Nat.lt_or_ge j n with h | h
  · rw [List.getD_eq_getElem?_getD, List.getElem?_map, List.getElem?_range h]
    simp [h]
  · rw [List.getD_eq_getElem?_getD, List.getElem?_eq_none (by simpa using h)]
    simp [Nat.not_lt.mpr h]

theorem rawMap20_length (ts : List ℚ) : (rawMap20 ts).length = ts.length := by
  simp [rawMap20]

theorem rawMap80_length (ts : List ℚ) : (rawMap80 ts).length = ts.length := by
  simp [rawMap80]

theorem setTrue3_length (m : List Bool) (id : ℕ) : (setTrue3 m id).length = m.length := by
  simp [setTrue3]

theorem foldl_setTrue3_length (ids : List ℕ) (m : List Bool) :
    (ids.foldl setTrue3 m).length = m.length := by
  induction ids generalizing m with
  | nil => rfl
  | cons id ids ih => rw [List.foldl_cons, ih, setTrue3_length]

theorem smear_length (m : List Bool) : (smear m).length = m.length :=
  foldl_setTrue3_length _ _

theorem setTrue3_getD (m : List Bool) (id j : ℕ) (hj : j < m.length) :
    (setTrue3 m id).getD j false = if id ≤ j ∧ j < id + 3 then true else m.getD j false := by
  unfold setTrue3
  rw [getD_map_range]
  simp [hj]

theorem foldl_setTrue3_getD (ids : List ℕ) (m : List Bool) (j : ℕ) (hj : j < m.length) :
    (ids.foldl setTrue3 m).getD j false =
      (m.getD j false || ids.any (fun id => decide (id ≤ j ∧ j < id + 3))) := by
  induction ids generalizing m with
  | nil => simp
  | cons id ids ih =>
    rw [List.foldl_cons, ih _ (by rw [setTrue3_length]; exact hj), setTrue3_getD m id j hj]
    by_cases h1 : id ≤ j <;> by_cases h2 : j < id + 3 <;>
      simp [h1, h2, Bool.or_assoc]

/-- The final value at `j` after the smear pass is the disjunction of the raw
values at `j`, `j-1`, `j-2`: the true positions are collected before any slice
assignment, so every raw true position `id ≤ j < id + 3` contributes. -/
theorem smear_getD_iff (m : List Bool) (j : ℕ) (hj : j < m.length) :
    ((smear m).getD j false = true ↔
      (m.getD j false = true ∨ (1 ≤ j ∧ m.getD (j-1) false = true) ∨
       (2 ≤ j ∧ m.getD (j-2) false = true))) := by
  unfold smear
  rw [foldl_setTrue3_getD _ _ _ hj]
  simp only [Bool.or_eq_true, List.any_eq_true, trueIds, List.mem_filter, List.mem_range,
    decide_eq_true_eq]
  constructor
  · rintro (h | ⟨id, ⟨hid, hmid⟩, hcov⟩)
    · exact Or.inl h
    · have : id = j ∨ (1 ≤ j ∧ id = j - 1) ∨ (2 ≤ j ∧ id = j - 2) := by omega
      rcases this with h1 | ⟨h1, h2⟩ | ⟨h1, h2⟩
      · exact Or.inl (h1 ▸ hmid)
      · exact Or.inr (Or.inl ⟨h1, h2 ▸ hmid⟩)
      · exact Or.inr (Or.inr ⟨h1, h2 ▸ hmid⟩)
  · rintro (h | ⟨h1, h2⟩ | ⟨h1, h2⟩)
    · exact Or.inr ⟨j, ⟨hj, h⟩, by omega⟩
    · exact Or.inr ⟨j - 1, ⟨by omega, h2⟩, by omega⟩
    · exact Or.inr ⟨j - 2, ⟨by omega, h2⟩, by omega⟩

/-! ### Characterisation of the percent-change pipeline -/

theorem toPF_length (ts : List ℚ) : (toPF ts).length = ts.length := by
  simp [toPF]

theorem ffillAux_length (c : PF) (s : List PF) : (ffillAux c s).length = s.length := by
  induction s generalizing c with
  | nil => rfl
  | cons x xs ih => by_cases h : x.isna <;> simp [ffillAux, h, ih]

theorem ffill_length (s : List PF) : (ffill s).length = s.length :=
  ffillAux_length _ _

theorem shiftNeg_length (k : ℕ) (s : List PF) : (shiftNeg k s).length = s.length := by
  simp [shiftNeg]
  omega

theorem pct_change_length (k : ℕ) (s : List PF) : (pct_change k s).length = s.length := by
  simp [pct_change]

theorem shiftNeg_zero (s : List PF) : shiftNeg 0 s = s := by
  simp [shiftNeg]

theorem ffillAux_map_fin_append (l : List ℚ) (r : List PF) (c : PF) (hl : l ≠ []) :
    ffillAux c (l.map PF.fin ++ r) =
      l.map PF.fin ++ ffillAux (PF.fin (l.getD (l.length - 1) 0)) r := by
  induction l generalizing c with
  | nil => exact absurd rfl hl
  | cons x xs ih =>
    by_cases hxs : xs = []
    · subst hxs
      simp [ffillAux, PF.isna]
    · have hlen : xs.length - 1 + 1 = xs.length := by
        cases xs with
        | nil => exact absurd rfl hxs
        | cons y ys => simp
      calc ffillAux c ((x :: xs).map PF.fin ++ r)
          = PF.fin x :: ffillAux (PF.fin x) (xs.map PF.fin ++ r) := by
            simp [ffillAux, PF.isna]
        _ = PF.fin x :: (xs.map PF.fin ++ ffillAux (PF.fin (xs.getD (xs.length - 1) 0)) r) := by
            rw [ih _ hxs]
        _ = (x :: xs).map PF.fin ++ ffillAux (PF.fin ((x :: xs).getD ((x :: xs).length - 1) 0)) r := by
            have : (x :: xs).getD ((x :: xs).length - 1) 0 = xs.getD (xs.length - 1) 0 := by
              rw [show (x :: xs).length - 1 = (xs.length - 1) + 1 by simp; omega]
              rw [List.getD_cons_succ]
            rw [this]
            simp

theorem ffillAux_replicate_nan (c : PF) (m : ℕ) :
    ffillAux c (List.replicate m PF.nan) = List.replicate m c := by
  induction m with
  | zero => rfl
  | succ m ih => simp [List.replicate_succ, ffillAux, PF.isna, ih]

/-- The forward-filled backward shift of a price series: position `j` holds
`ts[j + k]`, clamped to the last value of the series (the pad fill). -/
theorem ffill_shiftNeg_getD (ts : List ℚ) (k j : ℕ) (hk : k < ts.length)
    (hj : j < ts.length) :
    (ffill (shiftNeg k (toPF ts))).getD j PF.nan =
      PF.fin (ts.getD (min (j + k) (ts.length - 1)) 0) := by
  have hd : shiftNeg k (toPF ts) =
      (ts.drop k).map PF.fin ++ List.replicate (min k ts.length) PF.nan := by
    simp [shiftNeg, toPF, List.map_drop]
  have hne : ts.drop k ≠ [] := by
    apply List.ne_nil_of_length_pos
    rw [List.length_drop]
    omega
  have hlast : (ts.drop k).getD ((ts.drop k).length - 1) 0 = ts.getD (ts.length - 1) 0 := by
    rw [List.getD_eq_getElem?_getD, List.getElem?_drop, List.length_drop,
      List.getD_eq_getElem?_getD]
    congr 2
    omega
  rw [hd, ffill, ffillAux_map_fin_append _ _ _ hne, ffillAux_replicate_nan, hlast]
  rcases Nat.lt_or_ge j ((ts.drop k).length) with h | h
  · have hjk : k + j < ts.length := by
      rw [List.length_drop] at h
      omega
    have hmin : min (j + k) (ts.length - 1) = k + j := by omega
    rw [List.getD_eq_getElem?_getD, List.getElem?_append, if_pos (by simpa using h),
      List.getElem?_map, List.getElem?_drop, List.getElem?_eq_getElem hjk]
    simp [hmin, List.getD_eq_getElem?_getD, List.getElem?_eq_getElem hjk]
  · have hlen2 : (ts.drop k).length = ts.length - k := List.length_drop k ts
    have hmin : min (j + k) (ts.length - 1) = ts.length - 1 := by
      rw [hlen2] at h
      omega
    have hidx : j - (ts.drop k).length < min k ts.length := by
      rw [hlen2] at h ⊢
      omega
    rw [List.getD_eq_getElem?_getD, List.getElem?_append,
      if_neg (by simpa using Nat.not_lt.mpr h), List.length_map, List.getElem?_replicate,
      if_pos hidx, hmin]
    rfl

/-- Characterisation of `pct_change k` applied to a shifted price series. -/
theorem pct_change_shiftNeg_getD (ts : List ℚ) (k k' i : ℕ) (hk' : k' < ts.length)
    (hi : i < ts.length) :
    (pct_change k (shiftNeg k' (toPF ts))).getD i PF.nan =
      if k ≤ i then
        divSub1 (PF.fin (ts.getD (min (i + k') (ts.length - 1)) 0))
                (PF.fin (ts.getD (min (i - k + k') (ts.length - 1)) 0))
      else PF.nan := by
  have hlen : (shiftNeg k' (toPF ts)).length = ts.length := by
    rw [shiftNeg_length, toPF_length]
  simp only [pct_change, hlen]
  rw [getD_map_range, if_pos hi]
  rcases le_or_lt k i with h | h
  · rw [if_pos h, if_pos h, ffill_shiftNeg_getD ts k' i hk' hi,
      ffill_shiftNeg_getD ts k' (i - k) hk' (by omega)]
  · rw [if_neg (by omega), if_neg (by omega)]

/-- When the shift distance reaches the length of the series the shifted
series is all NaN, and so is any percent change of it. -/
theorem pct_change_shiftNeg_ge (ts : List ℚ) (k k' : ℕ) (hk' : ts.length ≤ k') (i : ℕ) :
    (pct_change k (shiftNeg k' (toPF ts))).getD i PF.nan = PF.nan := by
  have hd : shiftNeg k' (toPF ts) = List.replicate ts.length PF.nan := by
    simp only [shiftNeg, toPF]
    rw [List.drop_eq_nil_of_le (by simpa using hk')]
    rw [List.nil_append, List.length_map, Nat.min_eq_right hk']
  simp only [pct_change, hd, ffill, ffillAux_replicate_nan, List.length_replicate]
  rw [getD_map_range]
  rcases Nat.lt_or_ge i ts.length with h | h
  · rw [if_pos h]
    have hrep : ∀ j, (List.replicate ts.length PF.nan).getD j PF.nan = PF.nan := by
      intro j
      rw [List.getD_eq_getElem?_getD, List.getElem?_replicate]
      split <;> rfl
    rw [hrep, hrep]
    split <;> rfl
  · rw [if_neg (by omega)]

/-- Bridge between the float comparison `(a / b - 1) > c` and a
division-free rational comparison. -/
theorem gtB_divSub1 (a b c : ℚ) :
    gtB (divSub1 (PF.fin a) (PF.fin b)) c =
      if b = 0 then decide (0 < a)
      else if 0 < b then decide ((c + 1) * b < a) else decide (a < (c + 1) * b) := by
  by_cases hb : b = 0
  · subst hb
    rcases lt_trichotomy (0 : ℚ) a with ha | ha | ha
    · simp [divSub1, gtB, ha, not_lt.mpr ha.le]
    · simp [divSub1, gtB, ← ha]
    · simp [divSub1, gtB, not_lt.mpr ha.le, ha, asymm ha]
  · rw [show divSub1 (PF.fin a) (PF.fin b) = PF.fin (a / b - 1) by simp [divSub1, hb]]
    rw [if_neg hb]
    by_cases hbp : 0 < b
    · rw [if_pos hbp]
      show decide (c < a / b - 1) = decide ((c + 1) * b < a)
      rw [decide_eq_decide]
      rw [show (c < a / b - 1) ↔ (c + 1 < a / b) from ⟨fun h => by linarith, fun h => by linarith⟩]
      exact lt_div_iff hbp
    · have hbn : b < 0 := lt_of_le_of_ne (not_lt.mp hbp) hb
      rw [if_neg hbp]
      show decide (c < a / b - 1) = decide (a < (c + 1) * b)
      rw [decide_eq_decide]
      rw [show (c < a / b - 1) ↔ (c + 1 < a / b) from ⟨fun h => by linarith, fun h => by linarith⟩]
      exact lt_div_iff_of_neg hbn

theorem gtB_divSub1_20 (a b : ℚ) : gtB (divSub1 (PF.fin a) (PF.fin b)) (1/5) = gt20 a b := by
  rw [gtB_divSub1, gt20]
  by_cases hb : b = 0
  · simp [hb]
  · rw [if_neg hb, if_neg hb]
    by_cases hbp : 0 < b
    · rw [if_pos hbp, if_pos hbp, decide_eq_decide]
      constructor <;> intro h <;> linarith
    · rw [if_neg hbp, if_neg hbp, decide_eq_decide]
      constructor <;> intro h <;> linarith

theorem gtB_divSub1_80 (a b : ℚ) : gtB (divSub1 (PF.fin a) (PF.fin b)) (4/5) = gt80 a b := by
  rw [gtB_divSub1, gt80]
  by_cases hb : b = 0
  · simp [hb]
  · rw [if_neg hb, if_neg hb]
    by_cases hbp : 0 < b
    · rw [if_pos hbp, if_pos hbp, decide_eq_decide]
      constructor <;> intro h <;> linarith
    · rw [if_neg hbp, if_neg hbp, decide_eq_decide]
      constructor <;> intro h <;> linarith

/-- Full evaluation of the raw `3over20` map at position `i`: for `i ≥ 1`
the three conjuncts compare `ts[i-1] → ts[i] → ts[i+1] → ts[i+2]` (the last
two indices clamped to the end of the series by the pad fill of the shifted
series); position 0 is false (no previous day), and when the series has at
most 2 entries the third series is all NaN so everything is false. -/
theorem rawMap20_getD_eval (ts : List ℚ) (i : ℕ) (hi : i < ts.length) :
    (rawMap20 ts).getD i false =
      if 1 ≤ i then
        (gt20 (ts.getD i 0) (ts.getD (i-1) 0) &&
         gt20 (ts.getD (min (i+1) (ts.length - 1)) 0) (ts.getD i 0) &&
         (if 2 < ts.length then
            gt20 (ts.getD (min (i+2) (ts.length - 1)) 0)
                 (ts.getD (min (i+1) (ts.length - 1)) 0)
          else false))
      else false := by
  unfold rawMap20
  rw [getD_map_range, if_pos hi]
  rcases Nat.lt_or_ge i 1 with h1 | h1
  · have hi0 : i = 0 := by omega
    subst hi0
    have e1 : (pct_lag1 ts).getD 0 PF.nan = PF.nan := by
      unfold pct_lag1
      rw [← shiftNeg_zero (toPF ts), pct_change_shiftNeg_getD ts 1 0 0 (by omega) hi]
      rw [if_neg (by omega)]
    rw [e1]
    simp [gtB]
  · rw [if_pos h1]
    have hn2 : 2 ≤ ts.length := by omega
    have e1 : (pct_lag1 ts).getD i PF.nan =
        divSub1 (PF.fin (ts.getD i 0)) (PF.fin (ts.getD (i-1) 0)) := by
      unfold pct_lag1
      rw [← shiftNeg_zero (toPF ts), pct_change_shiftNeg_getD ts 1 0 i (by omega) hi]
      rw [if_pos h1]
      simp only [Nat.add_zero]
      rw [Nat.min_eq_left (by omega : i ≤ ts.length - 1),
        Nat.min_eq_left (by omega : i - 1 ≤ ts.length - 1)]
    have e2 : (pct_lag2 ts).getD i PF.nan =
        divSub1 (PF.fin (ts.getD (min (i+1) (ts.length - 1)) 0)) (PF.fin (ts.getD i 0)) := by
      unfold pct_lag2
      rw [pct_change_shiftNeg_getD ts 1 1 i (by omega) hi, if_pos h1]
      rw [show i - 1 + 1 = i by omega, Nat.min_eq_left (by omega : i ≤ ts.length - 1)]
    rw [e1, e2, gtB_divSub1_20, gtB_divSub1_20]
    rcases Nat.lt_or_ge 2 ts.length with h2 | h2
    · have e3 : (pct_lag3 ts).getD i PF.nan =
          divSub1 (PF.fin (ts.getD (min (i+2) (ts.length - 1)) 0))
                  (PF.fin (ts.getD (min (i+1) (ts.length - 1)) 0)) := by
        unfold pct_lag3
        rw [pct_change_shiftNeg_getD ts 1 2 i (by omega) hi, if_pos h1]
        rw [show i - 1 + 2 = i + 1 by omega]
      rw [e3, gtB_divSub1_20, if_pos h2]
    · have e3 : (pct_lag3 ts).getD i PF.nan = PF.nan := by
        unfold pct_lag3
        exact pct_change_shiftNeg_ge ts 1 2 (by omega) i
      rw [e3, if_neg (by omega)]
      simp [gtB]

/-- Full evaluation of the raw `80over3` map at position `i`: false below
index 3 and on series of length at most 2; otherwise it compares `ts[i-1]`
with `ts[i+2]` (clamped to the last index by the pad fill). -/
theorem rawMap80_getD_eval (ts : List ℚ) (i : ℕ) (hi : i < ts.length) :
    (rawMap80 ts).getD i false =
      if 3 ≤ i ∧ 2 < ts.length then
        gt80 (ts.getD (min (i+2) (ts.length - 1)) 0) (ts.getD (i-1) 0)
      else false := by
  unfold rawMap80
  rw [getD_map_range, if_pos hi]
  rcases Nat.lt_or_ge 2 ts.length with h2 | h2
  · rcases le_or_lt 3 i with h3 | h3
    · have e : (pct_over3 ts).getD i PF.nan =
          divSub1 (PF.fin (ts.getD (min (i+2) (ts.length - 1)) 0))
                  (PF.fin (ts.getD (i-1) 0)) := by
        unfold pct_over3
        rw [pct_change_shiftNeg_getD ts 3 2 i (by omega) hi, if_pos h3]
        rw [show i - 3 + 2 = i - 1 by omega,
          Nat.min_eq_left (by omega : i - 1 ≤ ts.length - 1)]
      rw [e, gtB_divSub1_80, if_pos ⟨h3, h2⟩]
    · have e : (pct_over3 ts).getD i PF.nan = PF.nan := by
        unfold pct_over3
        rw [pct_change_shiftNeg_getD ts 3 2 i (by omega) hi, if_neg (by omega)]
      rw [e, if_neg (by omega)]
      rfl
  · have e : (pct_over3 ts).getD i PF.nan = PF.nan := by
      unfold pct_over3
      exact pct_change_shiftNeg_ge ts 3 2 (by omega) i
    rw [e, if_neg (by omega)]
    rfl

theorem gt20_pos (a b : ℚ) (hb : 0 < b) : (gt20 a b = true ↔ (1/5 : ℚ) < (a - b) / b) := by
  unfold gt20
  rw [if_neg (ne_of_gt hb), if_pos hb, decide_eq_true_eq, lt_div_iff hb]
  constructor <;> intro h <;> linarith

theorem gt80_pos (a b : ℚ) (hb : 0 < b) : (gt80 a b = true ↔ (4/5 : ℚ) < (a - b) / b) := by
  unfold gt80
  rw [if_neg (ne_of_gt hb), if_pos hb, decide_eq_true_eq, lt_div_iff hb]
  constructor <;> intro h <;> linarith

theorem gt20_self (a : ℚ) (ha : 0 < a) : gt20 a a = false := by
  unfold gt20
  rw [if_neg (ne_of_gt ha), if_pos ha]
  simp only [decide_eq_false_iff_not, not_lt]
  linarith

theorem gt20_zero (a : ℚ) : gt20 a 0 = decide (0 < a) := by
  unfold gt20
  rw [if_pos rfl]

theorem gt80_zero (a : ℚ) : gt80 a 0 = decide (0 < a) := by
  unfold gt80
  rw [if_pos rfl]

theorem getD_pos_of_pos (ts : List ℚ) (hpos : ∀ x ∈ ts, 0 < x) (j : ℕ) (hj : j < ts.length) :
    0 < ts.getD j 0 := by
  rw [List.getD_eq_getElem ts 0 hj]
  exact hpos _ (List.getElem_mem hj)

/-! ### Claim C1 -/

/-- Claim C1, counterexample to the claim as stated: for `ts = [1,2,4,8]` the
spec's raw rule claims position 0 true (the changes 0→1, 1→2, 2→3 are all
+100 %) and, being one of the last 3 positions, position 1 false; but the
code's raw map is `[false, true, false, false]`: `pct_change` places the
change from day `i-1` to day `i` at position `i`, not the change from `i`
to `i+1`. -/
theorem rawMap20_c1_counterexample :
    spec3over20 [(1:ℚ), 2, 4, 8] 0 ∧ (rawMap20 [(1:ℚ), 2, 4, 8]).getD 0 false = false ∧
    (rawMap20 [(1:ℚ), 2, 4, 8]).getD 1 false = true ∧
    ¬ spec3over20 [(1:ℚ), 2, 4, 8] 1 := by
  refine ⟨?_, ?_, ?_, ?_⟩
  · refine ⟨by norm_num, ?_, ?_, ?_⟩ <;>
      norm_num [List.getD_cons_zero, List.getD_cons_succ]
  · rw [rawMap20_getD_eval _ 0 (by norm_num)]
    norm_num
  · rw [rawMap20_getD_eval _ 1 (by norm_num)]
    norm_num [gt20, List.getD_cons_zero, List.getD_cons_succ]
  · intro h
    exact absurd h.1 (by norm_num)

/-- Claim C1, amended and proved: for a positive price series, the raw
(pre-smear) `3over20` value at position `i` is true iff `1 ≤ i`,
`i + 2 < n`, and the day-over-day percent changes from `i-1` to `i`, from
`i` to `i+1`, and from `i+1` to `i+2` are all strictly greater than 0.20;
position 0 and the last two positions resolve to false (the claim's
indexing is shifted: `pct_change` is backward-looking). -/
theorem rawMap20_char (ts : List ℚ) (hpos : ∀ x ∈ ts, 0 < x) (i : ℕ) (hi : i < ts.length) :
    ((rawMap20 ts).getD i false = true ↔
      (1 ≤ i ∧ i + 2 < ts.length ∧
       (1/5 : ℚ) < (ts.getD i 0 - ts.getD (i-1) 0) / ts.getD (i-1) 0 ∧
       (1/5 : ℚ) < (ts.getD (i+1) 0 - ts.getD i 0) / ts.getD i 0 ∧
       (1/5 : ℚ) < (ts.getD (i+2) 0 - ts.getD (i+1) 0) / ts.getD (i+1) 0)) := by
  have hposD := getD_pos_of_pos ts hpos
  rw [rawMap20_getD_eval ts i hi]
  rcases Nat.lt_or_ge i 1 with h1 | h1
  · rw [if_neg (by omega)]
    exact iff_of_false (by simp) (fun h => absurd h.1 (by omega))
  · rw [if_pos h1]
    rcases Nat.lt_or_ge (i+2) ts.length with h2 | h2
    · have hn2 : 2 < ts.length := by omega
      rw [if_pos hn2, Nat.min_eq_left (by omega), Nat.min_eq_left (by omega)]
      rw [Bool.and_eq_true, Bool.and_eq_true]
      rw [gt20_pos _ _ (hposD (i-1) (by omega)), gt20_pos _ _ (hposD i (by omega)),
        gt20_pos _ _ (hposD (i+1) (by omega))]
      constructor
      · rintro ⟨⟨ha, hb⟩, hc⟩
        exact ⟨h1, h2, ha, hb, hc⟩
      · rintro ⟨_, _, ha, hb, hc⟩
        exact ⟨⟨ha, hb⟩, hc⟩
    · refine iff_of_false ?_ (fun h => absurd h.2.1 (by omega))
      intro hb
      rw [Bool.and_eq_true, Bool.and_eq_true] at hb
      have hcase : i = ts.length - 1 ∨ i = ts.length - 2 := by omega
      rcases hcase with hcase | hcase
      · have hm : min (i+1) (ts.length - 1) = i := by omega
        rw [hm] at hb
        exact absurd hb.1.2 (by rw [gt20_self _ (hposD i (by omega))]; simp)
      · have hn2 : 2 < ts.length := by omega
        rw [if_pos hn2] at hb
        have hm1 : min (i+1) (ts.length - 1) = ts.length - 1 := by omega
        have hm2 : min (i+2) (ts.length - 1) = ts.length - 1 := by omega
        rw [hm1, hm2] at hb
        exact absurd hb.2 (by rw [gt20_self _ (hposD (ts.length - 1) (by omega))]; simp)

/-- Witness for `rawMap20_char` at `ts = [1,2,4,8]`, `i = 1`. -/
theorem rawMap20_char_witness :
    ((rawMap20 [(1:ℚ), 2, 4, 8]).getD 1 false = true ↔
      (1 ≤ 1 ∧ 1 + 2 < [(1:ℚ), 2, 4, 8].length ∧
       (1/5 : ℚ) < ([(1:ℚ), 2, 4, 8].getD 1 0 - [(1:ℚ), 2, 4, 8].getD 0 0) /
         [(1:ℚ), 2, 4, 8].getD 0 0 ∧
       (1/5 : ℚ) < ([(1:ℚ), 2, 4, 8].getD 2 0 - [(1:ℚ), 2, 4, 8].getD 1 0) /
         [(1:ℚ), 2, 4, 8].getD 1 0 ∧
       (1/5 : ℚ) < ([(1:ℚ), 2, 4, 8].getD 3 0 - [(1:ℚ), 2, 4, 8].getD 2 0) /
         [(1:ℚ), 2, 4, 8].getD 2 0)) :=
  rawMap20_char [(1:ℚ), 2, 4, 8] (by intro x hx; fin_cases hx <;> norm_num) 1 (by norm_num)

/-! ### Claim C2 -/

/-- Claim C2, counterexample to the claim as stated: for
`ts = [1,1,1,1,1,2,1,1,1,1]` the code's raw `80over3` map is true at
position 3 (it compares `ts[5]` against `ts[2]`), while the claim's
formula `(shifted[i+3] - shifted[i]) / shifted[i] = (ts[8] - ts[5])/ts[5]`
is negative there: `pct_change(periods=3)` compares the current position
with the position three steps *back*, not three steps ahead. -/
theorem rawMap80_c2_counterexample :
    (rawMap80 [(1:ℚ), 1, 1, 1, 1, 2, 1, 1, 1, 1]).getD 3 false = true ∧
    ¬ spec80over3 [(1:ℚ), 1, 1, 1, 1, 2, 1, 1, 1, 1] 3 := by
  constructor
  · rw [rawMap80_getD_eval _ 3 (by norm_num)]
    norm_num [gt80, List.getD_cons_zero, List.getD_cons_succ]
  · intro h
    have h2 := h.2
    norm_num [List.getD_cons_zero, List.getD_cons_succ] at h2

/-- Claim C2, amended and proved: for a positive price series, the raw
(pre-smear) `80over3` value at position `i` is true iff `3 ≤ i` and
`(shifted[i] - shifted[i-3]) / shifted[i-3] > 0.80`, where
`shifted[j] = ts[j+2]` clamped to the last index by the pad fill, i.e.
`(ts[min(i+2, n-1)] - ts[i-1]) / ts[i-1] > 0.80`: the comparison is with
the value three positions back, not three ahead. -/
theorem rawMap80_char (ts : List ℚ) (hpos : ∀ x ∈ ts, 0 < x) (i : ℕ) (hi : i < ts.length) :
    ((rawMap80 ts).getD i false = true ↔
      (3 ≤ i ∧ (4/5 : ℚ) <
        (ts.getD (min (i+2) (ts.length - 1)) 0 - ts.getD (i-1) 0) / ts.getD (i-1) 0)) := by
  have hposD := getD_pos_of_pos ts hpos
  rw [rawMap80_getD_eval ts i hi]
  rcases le_or_lt 3 i with h3 | h3
  · rw [if_pos ⟨h3, by omega⟩, gt80_pos _ _ (hposD (i-1) (by omega))]
    exact ⟨fun h => ⟨h3, h⟩, fun h => h.2⟩
  · rw [if_neg (by rintro ⟨h, -⟩; omega)]
    exact iff_of_false (by simp) (fun h => absurd h.1 (by omega))

/-- Witness for `rawMap80_char` at `ts = [1,1,1,1,1,2,1,1,1,1]`, `i = 3`. -/
theorem rawMap80_char_witness :
    ((rawMap80 [(1:ℚ), 1, 1, 1, 1, 2, 1, 1, 1, 1]).getD 3 false = true ↔
      (3 ≤ 3 ∧ (4/5 : ℚ) <
        ([(1:ℚ), 1, 1, 1, 1, 2, 1, 1, 1, 1].getD
            (min (3+2) ([(1:ℚ), 1, 1, 1, 1, 2, 1, 1, 1, 1].length - 1)) 0 -
          [(1:ℚ), 1, 1, 1, 1, 2, 1, 1, 1, 1].getD 2 0) /
          [(1:ℚ), 1, 1, 1, 1, 2, 1, 1, 1, 1].getD 2 0)) :=
  rawMap80_char [(1:ℚ), 1, 1, 1, 1, 2, 1, 1, 1, 1]
    (by intro x hx; fin_cases hx <;> norm_num) 3 (by norm_num)

/-! ### Claim C9 -/

/-- Claim C9, counterexample to the claim as stated: the series
`[0, 1, 2, 4, 8]` contains a zero price at position 0; position 1's
`pct_lag1` computation divides by it, producing `+inf`, and `inf > 0.2`
is true in numpy — so position 1 is flagged true in the raw and final
`3over20` column, not treated as non-anomalous. -/
theorem zero_division_c9_counterexample :
    [(0:ℚ), 1, 2, 4, 8].getD 0 0 = 0 ∧
    (rawMap20 [(0:ℚ), 1, 2, 4, 8]).getD 1 false = true ∧
    (anomaly_detect [(0:ℚ), 1, 2, 4, 8]).1.getD 1 false = true := by
  have hraw : (rawMap20 [(0:ℚ), 1, 2, 4, 8]).getD 1 false = true := by
    rw [rawMap20_getD_eval _ 1 (by norm_num)]
    norm_num [gt20, List.getD_cons_zero, List.getD_cons_succ]
  refine ⟨by norm_num [List.getD_cons_zero], hraw, ?_⟩
  rw [show (anomaly_detect [(0:ℚ), 1, 2, 4, 8]).1 = smear (rawMap20 [(0:ℚ), 1, 2, 4, 8]) from
    rfl]
  rw [smear_getD_iff _ 1 (by rw [rawMap20_length]; norm_num)]
  exact Or.inl hraw

/-- Claim C9, amended and proved: `anomaly_detect` is total on series
containing zeros (both columns keep the input's length), and a position
whose percent-change computation divides by a zero price is treated as
non-anomalous only when the numerator makes the ratio NaN or `-inf`
(non-positive change): a positive change over a zero divisor is `+inf`,
which satisfies the strict threshold comparison, so the position can be
flagged true.  Concretely, with `ts[i-1] = 0` the first `3over20`
conjunct at `i` becomes `0 < ts[i]`, and for `3 ≤ i` the `80over3` value
at `i` becomes `0 < ts[min(i+2, n-1)]`. -/
theorem rawMaps_zero_divisor (ts : List ℚ) (i : ℕ) (hi : i < ts.length) (h1 : 1 ≤ i)
    (hz : ts.getD (i-1) 0 = 0) :
    ((rawMap20 ts).getD i false =
      (decide (0 < ts.getD i 0) &&
       gt20 (ts.getD (min (i+1) (ts.length - 1)) 0) (ts.getD i 0) &&
       (if 2 < ts.length then
          gt20 (ts.getD (min (i+2) (ts.length - 1)) 0) (ts.getD (min (i+1) (ts.length - 1)) 0)
        else false))) ∧
    (3 ≤ i → (rawMap80 ts).getD i false = decide (0 < ts.getD (min (i+2) (ts.length - 1)) 0)) ∧
    (rawMap20 ts).length = ts.length ∧ (rawMap80 ts).length = ts.length ∧
    (smear (rawMap20 ts)).length = ts.length ∧ (smear (rawMap80 ts)).length = ts.length := by
  refine ⟨?_, ?_, rawMap20_length ts, rawMap80_length ts,
    by rw [smear_length, rawMap20_length], by rw [smear_length, rawMap80_length]⟩
  · rw [rawMap20_getD_eval ts i hi, if_pos h1, hz, gt20_zero]
  · intro h3
    rw [rawMap80_getD_eval ts i hi, if_pos ⟨h3, by omega⟩, hz, gt80_zero]

/-- Witness for `rawMaps_zero_divisor` at `ts = [0,1,2,4,8]`, `i = 1`. -/
theorem rawMaps_zero_divisor_witness :
    ((rawMap20 [(0:ℚ), 1, 2, 4, 8]).getD 1 false =
      (decide (0 < [(0:ℚ), 1, 2, 4, 8].getD 1 0) &&
       gt20 ([(0:ℚ), 1, 2, 4, 8].getD (min 2 ([(0:ℚ), 1, 2, 4, 8].length - 1)) 0)
         ([(0:ℚ), 1, 2, 4, 8].getD 1 0) &&
       (if 2 < [(0:ℚ), 1, 2, 4, 8].length then
          gt20 ([(0:ℚ), 1, 2, 4, 8].getD (min 3 ([(0:ℚ), 1, 2, 4, 8].length - 1)) 0)
            ([(0:ℚ), 1, 2, 4, 8].getD (min 2 ([(0:ℚ), 1, 2, 4, 8].length - 1)) 0)
        else false))) ∧
    (3 ≤ 1 →
      (rawMap80 [(0:ℚ), 1, 2, 4, 8]).getD 1 false =
        decide (0 < [(0:ℚ), 1, 2, 4, 8].getD (min 3 ([(0:ℚ), 1, 2, 4, 8].length - 1)) 0)) ∧
    (rawMap20 [(0:ℚ), 1, 2, 4, 8]).length = [(0:ℚ), 1, 2, 4, 8].length ∧
    (rawMap80 [(0:ℚ), 1, 2, 4, 8]).length = [(0:ℚ), 1, 2, 4, 8].length ∧
    (smear (rawMap20 [(0:ℚ), 1, 2, 4, 8])).length = [(0:ℚ), 1, 2, 4, 8].length ∧
    (smear (rawMap80 [(0:ℚ), 1, 2, 4, 8])).length = [(0:ℚ), 1, 2, 4, 8].length :=
  rawMaps_zero_divisor [(0:ℚ), 1, 2, 4, 8] 1 (by norm_num) (by norm_num)
    (by norm_num [List.getD_cons_zero])

/-! ### Claim C3 -/

/-- Claim C3, counterexample to the claim as stated: for
`ts = [1,2,4,8,8,8,8,8]` the final `3over20` column is
`[F,T,T,T,F,F,F,F]`: position 3 is flagged true but position 4 is not,
although position 4 is not clamped by the end of the series (length 8).
So it is not the case that every *final*-flagged position has its two
successors flagged; only every *raw*-flagged position does. -/
theorem smear_c3_counterexample :
    (anomaly_detect [(1:ℚ), 2, 4, 8, 8, 8, 8, 8]).1.getD 3 false = true ∧
    (anomaly_detect [(1:ℚ), 2, 4, 8, 8, 8, 8, 8]).1.getD 4 false = false ∧
    (anomaly_detect [(1:ℚ), 2, 4, 8, 8, 8, 8, 8]).1.length = 8 := by
  have raw : ∀ j, j < 8 →
      (rawMap20 [(1:ℚ), 2, 4, 8, 8, 8, 8, 8]).getD j false = decide (j = 1) := by
    intro j hj
    rw [rawMap20_getD_eval _ j (by simpa using hj)]
    interval_cases j <;> norm_num [gt20, List.getD_cons_zero, List.getD_cons_succ]
  have hl : (rawMap20 [(1:ℚ), 2, 4, 8, 8, 8, 8, 8]).length = 8 := by
    rw [rawMap20_length]
    rfl
  refine ⟨?_, ?_, ?_⟩
  · rw [show (anomaly_detect [(1:ℚ), 2, 4, 8, 8, 8, 8, 8]).1 =
        smear (rawMap20 [(1:ℚ), 2, 4, 8, 8, 8, 8, 8]) from rfl]
    rw [show (true : Bool) = true from rfl, smear_getD_iff _ 3 (by omega)]
    exact Or.inr (Or.inr ⟨by omega, by rw [raw 1 (by omega)]; simp⟩)
  · rw [show (anomaly_detect [(1:ℚ), 2, 4, 8, 8, 8, 8, 8]).1 =
        smear (rawMap20 [(1:ℚ), 2, 4, 8, 8, 8, 8, 8]) from rfl]
    rw [← Bool.not_eq_true, smear_getD_iff _ 4 (by omega)]
    push_neg
    refine ⟨?_, fun _ => ?_, fun _ => ?_⟩
    · rw [raw 4 (by omega)]
      simp
    · rw [raw 3 (by omega)]
      simp
    · rw [raw 2 (by omega)]
      simp
  · rw [show (anomaly_detect [(1:ℚ), 2, 4, 8, 8, 8, 8, 8]).1 =
        smear (rawMap20 [(1:ℚ), 2, 4, 8, 8, 8, 8, 8]) from rfl]
    rw [smear_length, hl]

/-- Claim C3, amended and proved: in the final `3over20` and `80over3` columns of
`anomaly_detect`, for every position `i` that is true in the **raw** boolean
map, positions `i`, `i+1`, `i+2` are all true in the final column (clamped at
the end of the series); and because the smear first collects all raw true
positions and then forces each window, the final value at any `j` is exactly
`raw[j] ∨ raw[j-1] ∨ raw[j-2]`, so overlapping detections compound. -/
theorem anomaly_detect_smear_char (ts : List ℚ) (j : ℕ) (hj : j < ts.length) :
    ((anomaly_detect ts).1.getD j false = true ↔
      ((rawMap20 ts).getD j false = true ∨ (1 ≤ j ∧ (rawMap20 ts).getD (j-1) false = true) ∨
       (2 ≤ j ∧ (rawMap20 ts).getD (j-2) false = true))) ∧
    ((anomaly_detect ts).2.getD j false = true ↔
      ((rawMap80 ts).getD j false = true ∨ (1 ≤ j ∧ (rawMap80 ts).getD (j-1) false = true) ∨
       (2 ≤ j ∧ (rawMap80 ts).getD (j-2) false = true))) ∧
    (∀ i d, (rawMap20 ts).getD i false = true → d ≤ 2 → i + d < ts.length →
      (anomaly_detect ts).1.getD (i + d) false = true) ∧
    (∀ i d, (rawMap80 ts).getD i false = true → d ≤ 2 → i + d < ts.length →
      (anomaly_detect ts).2.getD (i + d) false = true) := by
  have h20 := rawMap20_length ts
  have h80 := rawMap80_length ts
  refine ⟨smear_getD_iff _ j (by omega), smear_getD_iff _ j (by omega), ?_, ?_⟩
  · intro i d hi hd hlt
    rw [show (anomaly_detect ts).1 = smear (rawMap20 ts) from rfl]
    rw [smear_getD_iff _ _ (by omega)]
    rcases Nat.lt_or_ge d 1 with h1 | h1
    · exact Or.inl (by simpa [show d = 0 by omega] using hi)
    · rcases Nat.lt_or_ge d 2 with h2 | h2
      · exact Or.inr (Or.inl ⟨by omega, by simpa [show i + d - 1 = i by omega] using hi⟩)
      · exact Or.inr (Or.inr ⟨by omega, by simpa [show i + d - 2 = i by omega] using hi⟩)
  · intro i d hi hd hlt
    rw [show (anomaly_detect ts).2 = smear (rawMap80 ts) from rfl]
    rw [smear_getD_iff _ _ (by omega)]
    rcases Nat.lt_or_ge d 1 with h1 | h1
    · exact Or.inl (by simpa [show d = 0 by omega] using hi)
    · rcases Nat.lt_or_ge d 2 with h2 | h2
      · exact Or.inr (Or.inl ⟨by omega, by simpa [show i + d - 1 = i by omega] using hi⟩)
      · exact Or.inr (Or.inr ⟨by omega, by simpa [show i + d - 2 = i by omega] using hi⟩)

/-- Witness for `anomaly_detect_smear_char` at a concrete input. -/
theorem anomaly_detect_smear_char_witness :
    (anomaly_detect [(1:ℚ), 2, 4, 8]).1.getD 2 false = true :=
  ((anomaly_detect_smear_char [(1:ℚ), 2, 4, 8] 2 (by norm_num)).2.2.1 1 1
    (by rw [rawMap20_getD_eval _ 1 (by norm_num)]
        norm_num [gt20, List.getD_cons_zero, List.getD_cons_succ])
    (by norm_num) (by norm_num))

/-! ### Claim C4 -/

/-- Claim C4, proved: every pair `(s, e)` returned by
`find_all_sequences(a, key)` satisfies the predicate at every index of
`[s, e]`, the predicate fails at `s - 1` and `e + 1` whenever those are in
bounds, the returned runs are pairwise non-overlapping and sorted in
strictly ascending order, and the documented example evaluates as stated. -/
theorem find_all_sequences_spec :
    (∀ (α : Type) (a : List α) (key : α → Bool) (p : ℕ × ℕ),
      p ∈ find_all_sequences a key →
      (p.1 ≤ p.2 ∧ p.2 < a.length ∧
       (∀ j, p.1 ≤ j → j ≤ p.2 → (a[j]?).any key = true) ∧
       (0 < p.1 → (a[p.1 - 1]?).any key = false) ∧
       (p.2 + 1 < a.length → (a[p.2 + 1]?).any key = false))) ∧
    (∀ (α : Type) (a : List α) (key : α → Bool),
      (find_all_sequences a key).Pairwise (fun p q => p.2 < q.1)) ∧
    find_all_sequences [(1:ℤ), 1, 0, 0, 1, 1, 1, 0, 1, 0, 0, 1, 0, 1, 1] (fun x => x == 1) =
      [(0, 1), (4, 6), (8, 8), (11, 11), (13, 14)] := by
  refine ⟨?_, ?_, by decide⟩
  · intro α a key p hp
    obtain ⟨h1, h2, h3, h4, h5, h6⟩ :=
      fswalk_sound key a 0 none (by intro s hs; cases hs) p hp
    have hka : ∀ j, keyAt key a 0 j = (a[j]?).any key := by
      intro j
      unfold keyAt
      rw [Nat.sub_zero]
    refine ⟨h2, by simpa using h3, ?_, ?_, ?_⟩
    · intro j hj1 hj2
      rw [← hka]
      exact h4 j hj1 hj2
    · intro h0
      rw [← hka]
      exact h5 h0
    · intro hlt
      rw [← hka]
      exact h6 (by simpa using hlt)
  · intro α a key
    exact fswalk_pairwise key a 0 none

/-- Witness for `find_all_sequences_spec` at a concrete run. -/
theorem find_all_sequences_spec_witness :
    ([(1:ℤ), 1, 0][0]?).any (fun x => x == 1) = true :=
  (find_all_sequences_spec.1 ℤ [1, 1, 0] (fun x => x == 1) (0, 1) (by decide)).2.2.1 0
    (by decide) (by decide)

/-! ### Counting machinery for the no-predicate mode -/

theorem countP_cov_of_pairwise (r : List (ℕ × ℕ)) (hr : r.Pairwise (fun p q => p.2 < q.1))
    (i : ℕ) :
    r.countP (fun p => decide (p.1 ≤ i ∧ i ≤ p.2)) =
      if ∃ p ∈ r, p.1 ≤ i ∧ i ≤ p.2 then 1 else 0 := by
  induction r with
  | nil => simp
  | cons p rest ih =>
    have hp := List.pairwise_cons.mp hr
    rw [List.countP_cons, ih hp.2]
    by_cases hc : p.1 ≤ i ∧ i ≤ p.2
    · have hrest : ¬ ∃ q ∈ rest, q.1 ≤ i ∧ i ≤ q.2 := by
        rintro ⟨q, hq, hq1, hq2⟩
        have := hp.1 q hq
        omega
      rw [if_neg hrest, if_pos (show (decide (p.1 ≤ i ∧ i ≤ p.2)) = true by simpa using hc),
        if_pos (show ∃ q ∈ p :: rest, q.1 ≤ i ∧ i ≤ q.2 from ⟨p, List.mem_cons_self p rest, hc⟩)]
    · rw [if_neg (show ¬ (decide (p.1 ≤ i ∧ i ≤ p.2)) = true by simpa using hc), Nat.add_zero]
      by_cases he : ∃ q ∈ rest, q.1 ≤ i ∧ i ≤ q.2
      · obtain ⟨q, hq, hqP⟩ := he
        rw [if_pos ⟨q, hq, hqP⟩, if_pos ⟨q, List.mem_cons_of_mem _ hq, hqP⟩]
      · rw [if_neg he, if_neg ?_]
        rintro ⟨q, hq, hqP⟩
        rcases List.mem_cons.mp hq with rfl | hq'
        · exact hc hqP
        · exact he ⟨q, hq', hqP⟩

/-- For any predicate, the number of returned runs covering a position `i`
is 1 when `i` is in range and satisfies the predicate, 0 otherwise. -/
theorem countP_cov_find_all {α : Type} (a : List α) (key : α → Bool) (i : ℕ) :
    (find_all_sequences a key).countP (fun p => decide (p.1 ≤ i ∧ i ≤ p.2)) =
      if i < a.length ∧ (a[i]?).any key = true then 1 else 0 := by
  unfold find_all_sequences
  rw [countP_cov_of_pairwise _ (fswalk_pairwise key a 0 none) i]
  by_cases h : i < a.length ∧ (a[i]?).any key = true
  · rw [if_pos h, if_pos ?_]
    obtain ⟨p, hp, h1, h2⟩ := fswalk_complete key a 0 none (by intro s hs; cases hs) i
      (by omega) (by simpa using h.1) (by unfold keyAt; rw [Nat.sub_zero]; exact h.2)
    exact ⟨p, hp, h1, h2⟩
  · rw [if_neg h, if_neg ?_]
    rintro ⟨p, hp, h1, h2⟩
    obtain ⟨-, -, h3, h4, -, -⟩ :=
      fswalk_sound key a 0 none (by intro s hs; cases hs) p hp
    have hi : i < a.length := by
      simp only [Nat.zero_add] at h3
      omega
    have hk := h4 i h1 h2
    unfold keyAt at hk
    rw [Nat.sub_zero] at hk
    exact h ⟨hi, hk⟩

theorem countP_flatMap {β γ : Type} (l : List β) (f : β → List γ) (p : γ → Bool) :
    (l.flatMap f).countP p = (l.map (fun v => (f v).countP p)).sum := by
  induction l with
  | nil => simp
  | cons x xs ih => simp [List.flatMap_cons, List.countP_append, ih]

theorem sum_map_indicator {β : Type} [DecidableEq β] (w : β) (g : β → ℕ) :
    ∀ (vs : List β), vs.Nodup → g w = 1 → (∀ v ∈ vs, v ≠ w → g v = 0) →
      (vs.map g).sum = if w ∈ vs then 1 else 0 := by
  intro vs
  induction vs with
  | nil => simp
  | cons v rest ih =>
    intro hv hgw hg0
    have hnd := List.nodup_cons.mp hv
    rw [List.map_cons, List.sum_cons,
      ih hnd.2 hgw (fun u hu hne => hg0 u (List.mem_cons_of_mem _ hu) hne)]
    by_cases hvw : v = w
    · subst hvw
      rw [hgw, if_neg hnd.1, if_pos (List.mem_cons_self _ _)]
    · rw [hg0 v (List.mem_cons_self _ _) hvw, Nat.zero_add]
      by_cases hwr : w ∈ rest
      · rw [if_pos hwr, if_pos (List.mem_cons_of_mem _ hwr)]
      · rw [if_neg hwr, if_neg ?_]
        intro hmem
        rcases List.mem_cons.mp hmem with rfl | h'
        · exact hvw rfl
        · exact hwr h'

theorem nokey_mem_iff {α : Type} [DecidableEq α] (a : List α) (p : ℕ × ℕ) :
    p ∈ find_all_sequences_nokey a ↔
      ∃ v ∈ a.dedup, p ∈ find_all_sequences a (fun x => decide (x = v)) := by
  unfold find_all_sequences_nokey
  rw [List.mem_insertionSort, List.mem_flatMap]

/-- Every position of the input is covered by exactly one run (counted) of
the no-predicate mode. -/
theorem countP_cov_nokey {α : Type} [DecidableEq α] (a : List α) (i : ℕ) (hi : i < a.length) :
    (find_all_sequences_nokey a).countP (fun p => decide (p.1 ≤ i ∧ i ≤ p.2)) = 1 := by
  unfold find_all_sequences_nokey
  rw [(List.perm_insertionSort startLE _).countP_eq, countP_flatMap]
  have hw : a[i]? = some a[i] := List.getElem?_eq_getElem hi
  rw [sum_map_indicator a[i]
    (fun v => (find_all_sequences a (fun x => decide (x = v))).countP
      (fun p => decide (p.1 ≤ i ∧ i ≤ p.2)))
    a.dedup (List.nodup_dedup a) ?_ ?_]
  · rw [if_pos (List.mem_dedup.mpr (List.getElem_mem hi))]
  · show (find_all_sequences a (fun x => decide (x = a[i]))).countP
      (fun p => decide (p.1 ≤ i ∧ i ≤ p.2)) = 1
    rw [countP_cov_find_all, if_pos ⟨hi, by rw [hw]; simp⟩]
  · intro v hv hne
    show (find_all_sequences a (fun x => decide (x = v))).countP
      (fun p => decide (p.1 ≤ i ∧ i ≤ p.2)) = 0
    rw [countP_cov_find_all, if_neg ?_]
    rintro ⟨-, hany⟩
    rw [hw] at hany
    simp only [Option.any_some, decide_eq_true_eq] at hany
    exact hne (hany ▸ rfl)

theorem eq_of_countP_one {β : Type} (r : List β) (q : β → Bool) (h1 : r.countP q = 1)
    {p1 p2 : β} (hp1 : p1 ∈ r) (hq1 : q p1 = true) (hp2 : p2 ∈ r) (hq2 : q p2 = true) :
    p1 = p2 := by
  rw [List.countP_eq_length_filter] at h1
  obtain ⟨b, hb⟩ := List.length_eq_one.mp h1
  have m1 : p1 ∈ r.filter q := List.mem_filter.mpr ⟨hp1, hq1⟩
  have m2 : p2 ∈ r.filter q := List.mem_filter.mpr ⟨hp2, hq2⟩
  rw [hb, List.mem_singleton] at m1 m2
  rw [m1, m2]

theorem countP_range_Icc (s e : ℕ) :
    ∀ n, (List.range n).countP (fun i => decide (s ≤ i ∧ i ≤ e)) = min (e + 1) n - s
  | 0 => by simp
  | n + 1 => by
    rw [List.range_succ, List.countP_append, countP_range_Icc s e n]
    simp only [List.countP_cons, List.countP_nil]
    by_cases h : s ≤ n ∧ n ≤ e <;> simp [h] <;> omega

theorem sum_map_const_zero {β : Type} (l : List β) : (l.map (fun _ => (0 : ℕ))).sum = 0 := by
  induction l <;> simp [*]

theorem sum_map_const_one {β : Type} (l : List β) : (l.map (fun _ => (1 : ℕ))).sum = l.length := by
  induction l with
  | nil => simp
  | cons x xs ih =>
    simp [ih, Nat.add_comm]

theorem countP_eq_sum_map_ite {β : Type} (l : List β) (q : β → Bool) :
    l.countP q = (l.map (fun x => if q x then 1 else 0)).sum := by
  induction l with
  | nil => simp
  | cons x xs ih =>
    rw [List.countP_cons, List.map_cons, List.sum_cons, ih, Nat.add_comm]

theorem sum_countP_swap {β : Type} (r : List β) (l : List ℕ) (f : β → ℕ → Bool) :
    (r.map (fun p => l.countP (f p))).sum = (l.map (fun i => r.countP (fun p => f p i))).sum := by
  induction r with
  | nil => simp [List.countP_nil, sum_map_const_zero]
  | cons p r ih =>
    rw [List.map_cons, List.sum_cons, ih]
    have h2 : (l.map (fun i => (p :: r).countP (fun q => f q i))).sum =
        (l.map (fun i => r.countP (fun q => f q i) + if f p i then 1 else 0)).sum := by
      congr 1
      apply List.map_congr_left
      intro i _
      rw [List.countP_cons]
    rw [h2, List.sum_map_add, ← countP_eq_sum_map_ite]
    omega

/-! ### Claim C5 -/

/-- Claim C5, proved: with the predicate omitted, `find_all_sequences`
returns, for each distinct value of the input, that value's maximal runs,
merged and sorted ascending by start: every position is covered by exactly
one returned run, the total covered length equals the input length, the
result is sorted by start index, and each run is a maximal constant-value
run. -/
theorem find_all_sequences_nokey_spec {α : Type} [DecidableEq α] (a : List α) :
    (∀ i, i < a.length →
      ∃! p : ℕ × ℕ, p ∈ find_all_sequences_nokey a ∧ p.1 ≤ i ∧ i ≤ p.2) ∧
    ((find_all_sequences_nokey a).map (fun p => p.2 + 1 - p.1)).sum = a.length ∧
    (find_all_sequences_nokey a).Sorted (fun p q => p.1 ≤ q.1) ∧
    (∀ p, p ∈ find_all_sequences_nokey a →
      ∃ v, (∀ j, p.1 ≤ j → j ≤ p.2 → a[j]? = some v) ∧
        (0 < p.1 → a[p.1 - 1]? ≠ some v) ∧
        (p.2 + 1 < a.length → a[p.2 + 1]? ≠ some v)) := by
  have hbounds : ∀ p ∈ find_all_sequences_nokey a, p.1 ≤ p.2 ∧ p.2 < a.length := by
    intro p hp
    obtain ⟨v, hv, hpv⟩ := (nokey_mem_iff a p).mp hp
    obtain ⟨-, h2, h3, -, -, -⟩ :=
      fswalk_sound (fun x => decide (x = v)) a 0 none (by intro s hs; cases hs) p hpv
    refine ⟨h2, ?_⟩
    simp only [Nat.zero_add] at h3
    exact h3
  refine ⟨?_, ?_, ?_, ?_⟩
  · intro i hi
    have hcount := countP_cov_nokey a i hi
    have hpos : 0 < (find_all_sequences_nokey a).countP
        (fun p => decide (p.1 ≤ i ∧ i ≤ p.2)) := by
      rw [hcount]
      omega
    obtain ⟨p, hp, hq⟩ := List.countP_pos.mp hpos
    refine ⟨p, ⟨hp, by simpa using hq⟩, ?_⟩
    rintro q ⟨hq', hcov⟩
    exact eq_of_countP_one _ _ hcount hq' (by simpa using hcov) hp hq
  · calc ((find_all_sequences_nokey a).map (fun p => p.2 + 1 - p.1)).sum
        = ((find_all_sequences_nokey a).map
            (fun p => (List.range a.length).countP (fun i => decide (p.1 ≤ i ∧ i ≤ p.2)))).sum := by
          congr 1
          apply List.map_congr_left
          intro p hp
          rw [countP_range_Icc]
          have := hbounds p hp
          omega
      _ = ((List.range a.length).map
            (fun i => (find_all_sequences_nokey a).countP
              (fun p => decide (p.1 ≤ i ∧ i ≤ p.2)))).sum :=
          sum_countP_swap _ _ _
      _ = ((List.range a.length).map (fun _ => 1)).sum := by
          congr 1
          apply List.map_congr_left
          intro i hi
          rw [countP_cov_nokey a i (List.mem_range.mp hi)]
      _ = a.length := by
          rw [sum_map_const_one, List.length_range]
  · exact List.sorted_insertionSort startLE _
  · intro p hp
    obtain ⟨v, hv, hpv⟩ := (nokey_mem_iff a p).mp hp
    obtain ⟨-, -, h3, h4, h5, h6⟩ :=
      fswalk_sound (fun x => decide (x = v)) a 0 none (by intro s hs; cases hs) p hpv
    have hka : ∀ j b, keyAt (fun x => decide (x = v)) a 0 j = b ↔
        (a[j]?).any (fun x => decide (x = v)) = b := by
      intro j b
      unfold keyAt
      rw [Nat.sub_zero]
    refine ⟨v, ?_, ?_, ?_⟩
    · intro j hj1 hj2
      have hk := (hka j true).mp (h4 j hj1 hj2)
      cases haj : a[j]? with
      | none => rw [haj] at hk; simp at hk
      | some w =>
        rw [haj] at hk
        simp only [Option.any_some, decide_eq_true_eq] at hk
        rw [hk]
    · intro h0
      have hk := (hka (p.1 - 1) false).mp (h5 h0)
      intro heq
      rw [heq] at hk
      simp at hk
    · intro hlt
      have hk := (hka (p.2 + 1) false).mp (h6 (by simpa using hlt))
      intro heq
      rw [heq] at hk
      simp at hk

/-- Witness for `find_all_sequences_nokey_spec` at a concrete input. -/
theorem find_all_sequences_nokey_spec_witness :
    ∃! p : ℕ × ℕ, p ∈ find_all_sequences_nokey [(1:ℤ), 1, 2] ∧ p.1 ≤ 0 ∧ 0 ≤ p.2 :=
  (find_all_sequences_nokey_spec [(1:ℤ), 1, 2]).1 0 (by decide)

/-! ### The mark column of `anomaly_news_markup_func` -/

theorem setRangeI_length (m : List ℤ) (a b v : ℤ) : (setRangeI m a b v).length = m.length := by
  simp [setRangeI]

theorem setRangeI_getD (m : List ℤ) (a b v : ℤ) (j : ℕ) (hj : j < m.length) :
    (setRangeI m a b v).getD j 0 = if a ≤ (j : ℤ) ∧ (j : ℤ) ≤ b then v else m.getD j 0 := by
  unfold setRangeI
  rw [getD_map_range, if_pos hj]

theorem expandRun_fst (n : ℕ) (p : ℕ × ℕ) : (expandRun n p).1 = p.1 - 3 := by
  simp only [expandRun]
  split <;> omega

theorem expandRun_snd (n : ℕ) (p : ℕ × ℕ) : (expandRun n p).2 = min (n - 1) (p.2 + 3) := by
  simp only [expandRun]
  split <;> omega

theorem foldl_setRangeI_length (na : ℤ) :
    ∀ (prs : List (ℕ × ℕ)) (m : List ℤ),
      (prs.foldl (fun m pr => setRangeI m (pr.1 : ℤ) (pr.2 : ℤ) na) m).length = m.length := by
  intro prs
  induction prs with
  | nil => intro m; rfl
  | cons pr prs ih =>
    intro m
    rw [List.foldl_cons, ih, setRangeI_length]

theorem foldl_setRangeI_getD (na : ℤ) :
    ∀ (prs : List (ℕ × ℕ)) (m : List ℤ) (j : ℕ), j < m.length →
      ((prs.foldl (fun m pr => setRangeI m (pr.1 : ℤ) (pr.2 : ℤ) na) m).getD j 0 = m.getD j 0 ∨
       (prs.foldl (fun m pr => setRangeI m (pr.1 : ℤ) (pr.2 : ℤ) na) m).getD j 0 = na) := by
  intro prs
  induction prs with
  | nil => intro m j hj; exact Or.inl rfl
  | cons pr prs ih =>
    intro m j hj
    rw [List.foldl_cons]
    rcases ih (setRangeI m pr.1 pr.2 na) j (by rw [setRangeI_length]; exact hj) with h | h
    · rw [h, setRangeI_getD _ _ _ _ _ hj]
      split
      · exact Or.inr rfl
      · exact Or.inl rfl
    · exact Or.inr h

theorem foldl_setRangeI_cover (na : ℤ) :
    ∀ (prs : List (ℕ × ℕ)) (m : List ℤ) (j : ℕ), j < m.length →
      (∃ pr ∈ prs, pr.1 ≤ j ∧ j ≤ pr.2) →
      (prs.foldl (fun m pr => setRangeI m (pr.1 : ℤ) (pr.2 : ℤ) na) m).getD j 0 = na := by
  intro prs
  induction prs with
  | nil =>
    intro m j hj hcov
    obtain ⟨pr, hpr, -⟩ := hcov
    simp at hpr
  | cons pr prs ih =>
    intro m j hj hcov
    rw [List.foldl_cons]
    obtain ⟨q, hq, hq1, hq2⟩ := hcov
    rcases List.mem_cons.mp hq with rfl | hq'
    · rcases foldl_setRangeI_getD na prs (setRangeI m q.1 q.2 na) j
        (by rw [setRangeI_length]; exact hj) with h | h
      · rw [h, setRangeI_getD _ _ _ _ _ hj,
          if_pos ⟨by exact_mod_cast hq1, by exact_mod_cast hq2⟩]
      · exact h
    · exact ih _ j (by rw [setRangeI_length]; exact hj) ⟨q, hq', hq1, hq2⟩

theorem invalidPass_length (val : List (Option ℚ)) (anomaly : List (Option Bool)) (na : ℤ) :
    (invalidPass val anomaly na).length = val.length := by
  unfold invalidPass
  rw [foldl_setRangeI_length, List.length_replicate]

theorem invalidPass_getD_mem (val : List (Option ℚ)) (anomaly : List (Option Bool)) (na : ℤ)
    (j : ℕ) (hj : j < val.length) :
    (invalidPass val anomaly na).getD j 0 = 0 ∨ (invalidPass val anomaly na).getD j 0 = na := by
  unfold invalidPass
  rcases foldl_setRangeI_getD na _ (List.replicate val.length 0) j
    (by rw [List.length_replicate]; exact hj) with h | h
  · left
    rw [h, List.getD_eq_getElem?_getD, List.getElem?_replicate, if_pos hj]
    rfl
  · right
    exact h

/-- After the invalid pass, every position inside the claim's expansion
`[max(0, s-3), min(n-1, e+3)]` of a detected run holds `na_mark` (the
source's conditional expansion agrees with the clamped form). -/
theorem invalidPass_cover (val : List (Option ℚ)) (anomaly : List (Option Bool)) (na : ℤ)
    (p : ℕ × ℕ) (hp : p ∈ runsAN val anomaly) (j : ℕ)
    (hj1 : p.1 - 3 ≤ j) (hj2 : j ≤ min (val.length - 1) (p.2 + 3)) (hjn : j < val.length) :
    (invalidPass val anomaly na).getD j 0 = na := by
  unfold invalidPass
  apply foldl_setRangeI_cover
  · rw [List.length_replicate]
    exact hjn
  · refine ⟨expandRun val.length p, ?_, ?_, ?_⟩
    · rw [List.mem_insertionSort]
      exact List.mem_map_of_mem _ hp
    · rw [expandRun_fst]
      exact hj1
    · rw [expandRun_snd]
      exact hj2

/-- Case analysis on `processNews`: skip, hit (with the `find?` result as
triggering day), or `IndexError`. -/
theorem processNews_cases (val : List (Option ℚ)) (anomaly : List (Option Bool))
    (mp : Bool) (m : List ℤ) (p : ℤ) :
    processNews val anomaly mp m p = some m ∨
    (∃ fa, (window val.length p).find? (fun i => anomaly.getD i none == some true) = some fa ∧
      processNews val anomaly mp m p =
        some (if mp then setRangeI m ((fa : ℤ) - 7) ((fa : ℤ) + 5) 1 else m.set fa 1)) ∨
    processNews val anomaly mp m p = none := by
  simp only [processNews]
  by_cases h1 : (window val.length p).any (fun i => (val.getD i none).isNone) = true
  · rw [if_pos h1]
    exact Or.inl rfl
  · rw [if_neg h1]
    by_cases h2 : (window val.length p).any (fun i => truthy (anomaly.getD i none)) = true
    · rw [if_pos h2]
      cases hfind : (window val.length p).find? (fun i => anomaly.getD i none == some true) with
      | none => exact Or.inr (Or.inr rfl)
      | some fa => exact Or.inr (Or.inl ⟨fa, rfl, rfl⟩)
    · rw [if_neg h2]
      exact Or.inl rfl

theorem processNews_length (val : List (Option ℚ)) (anomaly : List (Option Bool))
    (mp : Bool) (m : List ℤ) (p : ℤ) (m' : List ℤ)
    (h : processNews val anomaly mp m p = some m') : m'.length = m.length := by
  rcases processNews_cases val anomaly mp m p with hc | ⟨fa, -, hc⟩ | hc
  · rw [hc] at h
    injection h with h
    rw [← h]
  · rw [hc] at h
    injection h with h
    rw [← h]
    split
    · rw [setRangeI_length]
    · rw [List.length_set]
  · rw [hc] at h
    cases h

theorem processNews_pointwise (val : List (Option ℚ)) (anomaly : List (Option Bool))
    (mp : Bool) (m : List ℤ) (p : ℤ) (m' : List ℤ)
    (h : processNews val anomaly mp m p = some m') (j : ℕ) (hj : j < m.length) :
    m'.getD j 0 = m.getD j 0 ∨ m'.getD j 0 = 1 := by
  rcases processNews_cases val anomaly mp m p with hc | ⟨fa, -, hc⟩ | hc
  · rw [hc] at h
    injection h with h
    rw [← h]
    exact Or.inl rfl
  · rw [hc] at h
    injection h with h
    rw [← h]
    split
    · rw [setRangeI_getD _ _ _ _ _ hj]
      split
      · exact Or.inr rfl
      · exact Or.inl rfl
    · rw [List.getD_eq_getElem?_getD, List.getElem?_set]
      by_cases hfj : fa = j
      · rw [if_pos hfj, if_pos (by omega)]
        exact Or.inr rfl
      · rw [if_neg hfj, ← List.getD_eq_getElem?_getD]
        exact Or.inl rfl
  · rw [hc] at h
    cases h

theorem foldlM_processNews_length (val : List (Option ℚ)) (anomaly : List (Option Bool))
    (mp : Bool) :
    ∀ (news : List ℤ) (m m' : List ℤ),
      news.foldlM (processNews val anomaly mp) m = some m' → m'.length = m.length := by
  intro news
  induction news with
  | nil =>
    intro m m' h
    simp only [List.foldlM_nil, Option.pure_def] at h
    injection h with h
    rw [h]
  | cons q news ih =>
    intro m m' h
    rw [List.foldlM_cons] at h
    cases hq : processNews val anomaly mp m q with
    | none =>
      simp only [hq, Option.bind_eq_bind, Option.none_bind] at h
      cases h
    | some m1 =>
      simp only [hq, Option.bind_eq_bind, Option.some_bind] at h
      rw [ih m1 m' h, processNews_length _ _ _ _ _ _ hq]

theorem foldlM_processNews_pointwise (val : List (Option ℚ)) (anomaly : List (Option Bool))
    (mp : Bool) :
    ∀ (news : List ℤ) (m m' : List ℤ),
      news.foldlM (processNews val anomaly mp) m = some m' →
      ∀ j, j < m.length → m'.getD j 0 = m.getD j 0 ∨ m'.getD j 0 = 1 := by
  intro news
  induction news with
  | nil =>
    intro m m' h j hj
    simp only [List.foldlM_nil, Option.pure_def] at h
    injection h with h
    rw [h]
    exact Or.inl rfl
  | cons q news ih =>
    intro m m' h j hj
    rw [List.foldlM_cons] at h
    cases hq : processNews val anomaly mp m q with
    | none =>
      simp only [hq, Option.bind_eq_bind, Option.none_bind] at h
      cases h
    | some m1 =>
      simp only [hq, Option.bind_eq_bind, Option.some_bind] at h
      have hj1 : j < m1.length := by
        rw [processNews_length _ _ _ _ _ _ hq]
        exact hj
      rcases ih m1 m' h j hj1 with h1 | h1
      · rcases processNews_pointwise _ _ _ _ _ _ hq j hj with h2 | h2
        · exact Or.inl (h1.trans h2)
        · exact Or.inr (h1.trans h2)
      · exact Or.inr h1

/-! ### Claim C10 -/

/-- Claim C10, proved: whenever `anomaly_news_markup_func` returns, the
mark column has exactly one value per business-day slot (same length as
the frame) and every value is `0`, `1`, or `na_mark`: every slot is
initialised to 0, the invalid pass writes only `na_mark`, and the news
pass writes only `1`. -/
theorem markup_mark_values (val : List (Option ℚ)) (anomaly : List (Option Bool))
    (news : List ℤ) (mp : Bool) (na : ℤ) (marks : List ℤ)
    (h : anomaly_news_markup val anomaly news mp na = some marks) :
    marks.length = val.length ∧ ∀ v ∈ marks, v = 0 ∨ v = 1 ∨ v = na := by
  unfold anomaly_news_markup at h
  have hlen : marks.length = val.length := by
    rw [foldlM_processNews_length val anomaly mp news _ marks h, invalidPass_length]
  refine ⟨hlen, ?_⟩
  intro v hv
  obtain ⟨j, hjl, hjv⟩ := List.mem_iff_getElem.mp hv
  have hgd : marks.getD j 0 = v := by
    rw [List.getD_eq_getElem _ _ hjl, hjv]
  have hj : j < (invalidPass val anomaly na).length := by
    rw [invalidPass_length]
    omega
  rcases foldlM_processNews_pointwise val anomaly mp news _ marks h j hj with h1 | h1
  · rcases invalidPass_getD_mem val anomaly na j (by rwa [invalidPass_length] at hj) with h2 | h2
    · exact Or.inl (by rw [← hgd, h1, h2])
    · exact Or.inr (Or.inr (by rw [← hgd, h1, h2]))
  · exact Or.inr (Or.inl (by rw [← hgd, h1]))

/-- Witness for `markup_mark_values` at a concrete input. -/
theorem markup_mark_values_witness :
    ([(0 : ℤ)]).length = [some (1:ℚ)].length ∧
      ∀ v ∈ [(0 : ℤ)], v = 0 ∨ v = 1 ∨ v = -1 :=
  markup_mark_values [some (1:ℚ)] [some false] [] true (-1) [0] (by decide)

/-! ### Claim C6 -/

/-- Claim C6, counterexample to the claim as stated: on a frame of 8
business days with constant prices, an anomaly at position 4 and a news
event at position 5: the anomaly run `(4,4)` has expanded range `[1,7]`,
but the news pass overwrites the whole frame with `1`, so the returned
`INVALID` mark does not cover the expanded run — position 1 holds `1`,
not `-1`.  The invalid coverage only holds up to news overwrites (claim
C7's own overwrite rule). -/
theorem invalid_c6_counterexample :
    runsAN (List.replicate 8 (some (1:ℚ)))
      [some false, some false, some false, some false,
       some true, some false, some false, some false] = [(4, 4)] ∧
    anomaly_news_markup (List.replicate 8 (some (1:ℚ)))
      [some false, some false, some false, some false,
       some true, some false, some false, some false] [5] true (-1) =
      some (List.replicate 8 (1 : ℤ)) ∧
    (List.replicate 8 (1 : ℤ)).getD 1 0 ≠ -1 := by
  refine ⟨by decide, by decide, by decide⟩

/-- Claim C6, amended and proved: in the returned frame, for every maximal
anomaly-true run and every maximal missing-value run `[s, e]`, every
position of the expanded run `[max(0, s-3), min(n-1, e+3)]` holds either
`na_mark` or `1`: the invalid pass marks the whole expanded run with
`na_mark` (clamped at the series bounds), and only the news pass may
later overwrite positions of it with `1`. -/
theorem invalid_mark_coverage (val : List (Option ℚ)) (anomaly : List (Option Bool))
    (news : List ℤ) (mp : Bool) (na : ℤ) (marks : List ℤ)
    (h : anomaly_news_markup val anomaly news mp na = some marks)
    (p : ℕ × ℕ) (hp : p ∈ runsAN val anomaly) (j : ℕ)
    (hj1 : p.1 - 3 ≤ j) (hj2 : j ≤ min (val.length - 1) (p.2 + 3)) (hjn : j < val.length) :
    marks.getD j 0 = na ∨ marks.getD j 0 = 1 := by
  unfold anomaly_news_markup at h
  have hinv := invalidPass_cover val anomaly na p hp j hj1 hj2 hjn
  rcases foldlM_processNews_pointwise val anomaly mp news _ marks h j
    (by rw [invalidPass_length]; exact hjn) with h1 | h1
  · exact Or.inl (by rw [h1, hinv])
  · exact Or.inr h1

/-- Witness for `invalid_mark_coverage` at a concrete input. -/
theorem invalid_mark_coverage_witness :
    ([(-1 : ℤ), -1]).getD 0 0 = -1 ∨ ([(-1 : ℤ), -1]).getD 0 0 = 1 :=
  invalid_mark_coverage [some (1:ℚ), some 1] [some true, some false] [] true (-1)
    [-1, -1] (by decide) (0, 0) (by decide) 0 (by decide) (by decide) (by decide)

/-! ### Claim C8 -/

/-- Claim C8, proved: a news event whose lookback window contains a
missing value in the value column is skipped entirely: `processNews`
returns the marks unchanged (`some m`, no exception, no mark written). -/
theorem processNews_skip_missing (val : List (Option ℚ)) (anomaly : List (Option Bool))
    (mp : Bool) (m : List ℤ) (p : ℤ)
    (h : ∃ i ∈ window val.length p, val.getD i none = none) :
    processNews val anomaly mp m p = some m := by
  simp only [processNews]
  rw [if_pos ?_]
  obtain ⟨i, hi, heq⟩ := h
  refine List.any_eq_true.mpr ⟨i, hi, ?_⟩
  rw [heq]
  rfl

/-! ### Claim C7 -/

theorem window_pairwise (n : ℕ) (p : ℤ) : (window n p).Pairwise (· < ·) :=
  (List.pairwise_lt_range n).filter _

theorem window_mem_lt (n : ℕ) (p : ℤ) (i : ℕ) (hi : i ∈ window n p) : i < n := by
  unfold window at hi
  exact List.mem_range.mp (List.mem_filter.mp hi).1

theorem find?_earliest (f : ℕ → Bool) :
    ∀ (l : List ℕ), l.Pairwise (· < ·) → ∀ b, l.find? f = some b →
      ∀ a ∈ l, a < b → f a = false := by
  intro l
  induction l with
  | nil =>
    intro _ b _ a ha
    simp at ha
  | cons x xs ih =>
    intro hl b hf a ha hab
    have hp := List.pairwise_cons.mp hl
    by_cases hfx : f x = true
    · rw [List.find?_cons_of_pos _ hfx] at hf
      injection hf with hf
      subst hf
      rcases List.mem_cons.mp ha with rfl | ha'
      · exfalso
        omega
      · exfalso
        have := hp.1 a ha'
        omega
    · rw [List.find?_cons_of_neg _ hfx] at hf
      rcases List.mem_cons.mp ha with rfl | ha'
      · rwa [Bool.not_eq_true] at hfx
      · exact ih hp.2 b hf a ha' hab

/-- When the lookback window has no missing value and `find?` locates a
triggering day, `processNews` takes the marking branch. -/
theorem processNews_hit (val : List (Option ℚ)) (anomaly : List (Option Bool)) (p : ℤ) (fa : ℕ)
    (hval : ∀ i ∈ window val.length p, (val.getD i none).isNone = false)
    (hfa : (window val.length p).find? (fun i => anomaly.getD i none == some true) = some fa)
    (mp : Bool) (m : List ℤ) :
    processNews val anomaly mp m p =
      some (if mp then setRangeI m ((fa : ℤ) - 7) ((fa : ℤ) + 5) 1 else m.set fa 1) := by
  have hfa_true : anomaly.getD fa none = some true := by
    have h := List.find?_some hfa
    rwa [beq_iff_eq] at h
  have hmiss : ¬ ((window val.length p).any (fun i => (val.getD i none).isNone) = true) := by
    intro hcon
    obtain ⟨i, hi, hb⟩ := List.any_eq_true.mp hcon
    rw [hval i hi] at hb
    cases hb
  have htruthy : (window val.length p).any (fun i => truthy (anomaly.getD i none)) = true := by
    refine List.any_eq_true.mpr ⟨fa, List.mem_of_find?_eq_some hfa, ?_⟩
    rw [hfa_true]
    rfl
  simp only [processNews]
  rw [if_neg hmiss, if_pos htruthy, hfa]

theorem foldlM_processNews_preserve_one (val : List (Option ℚ)) (anomaly : List (Option Bool))
    (mp : Bool) (news : List ℤ) (m m' : List ℤ)
    (h : news.foldlM (processNews val anomaly mp) m = some m')
    (j : ℕ) (hj : j < m.length) (h1 : m.getD j 0 = 1) : m'.getD j 0 = 1 := by
  rcases foldlM_processNews_pointwise val anomaly mp news m m' h j hj with h2 | h2
  · rw [h2, h1]
  · exact h2

/-- Claim C7, proved: for a news event at position `p` whose lookback
window has no missing value and contains an anomaly-true slot, the slot
found by the scan is the earliest anomaly-true slot of the window; with
`mark_period` true (and the defaults `days_before = 7`, `days_after = 5`,
`na_mark = -1`), every business day from 7 days before through 5 days
after the triggering day (clamped to the frame) ends with mark 1,
overwriting any prior mark including `INVALID`; with `mark_period` false
only the triggering day is marked 1 (for a single-event news list no
other position holds 1). -/
theorem markup_news_marking (val : List (Option ℚ)) (anomaly : List (Option Bool))
    (news : List ℤ) (p : ℤ) (fa : ℕ)
    (hp : p ∈ news)
    (hval : ∀ i ∈ window val.length p, (val.getD i none).isNone = false)
    (hfa : (window val.length p).find? (fun i => anomaly.getD i none == some true) = some fa) :
    (anomaly.getD fa none = some true ∧ fa ∈ window val.length p ∧
      ∀ i ∈ window val.length p, i < fa → anomaly.getD i none ≠ some true) ∧
    (∀ marks, anomaly_news_markup val anomaly news true (-1) = some marks →
      ∀ j : ℕ, (fa : ℤ) - 7 ≤ (j : ℤ) → (j : ℤ) ≤ (fa : ℤ) + 5 → j < val.length →
        marks.getD j 0 = 1) ∧
    (∀ marks, anomaly_news_markup val anomaly news false (-1) = some marks →
      marks.getD fa 0 = 1) ∧
    (∀ marks, anomaly_news_markup val anomaly [p] false (-1) = some marks →
      ∀ j, j < val.length → j ≠ fa → marks.getD j 0 ≠ 1) := by
  have hfa_true : anomaly.getD fa none = some true := by
    have h := List.find?_some hfa
    rwa [beq_iff_eq] at h
  have hfa_mem : fa ∈ window val.length p := List.mem_of_find?_eq_some hfa
  have hfa_lt : fa < val.length := window_mem_lt _ _ _ hfa_mem
  refine ⟨⟨hfa_true, hfa_mem, ?_⟩, ?_, ?_, ?_⟩
  · intro i hi hifa heq
    have h := find?_earliest _ _ (window_pairwise val.length p) fa hfa i hi hifa
    rw [heq] at h
    simp at h
  · intro marks h j hj1 hj2 hjn
    obtain ⟨l1, l2, rfl⟩ := List.append_of_mem hp
    unfold anomaly_news_markup at h
    rw [List.foldlM_append] at h
    cases h1 : List.foldlM (processNews val anomaly true) (invalidPass val anomaly (-1)) l1 with
    | none =>
      simp only [h1, Option.bind_eq_bind, Option.none_bind] at h
      cases h
    | some m1 =>
      simp only [h1, Option.bind_eq_bind, Option.some_bind] at h
      rw [List.foldlM_cons, processNews_hit val anomaly p fa hval hfa true m1] at h
      simp only [Option.bind_eq_bind, Option.some_bind] at h
      have hm1 : m1.length = val.length := by
        rw [foldlM_processNews_length val anomaly true l1 _ m1 h1, invalidPass_length]
      refine foldlM_processNews_preserve_one val anomaly true l2 _ marks h j ?_ ?_
      · show j < (if true then setRangeI m1 ((fa : ℤ) - 7) ((fa : ℤ) + 5) 1
          else m1.set fa 1).length
        rw [if_pos rfl, setRangeI_length]
        omega
      · show (if true then setRangeI m1 ((fa : ℤ) - 7) ((fa : ℤ) + 5) 1
          else m1.set fa 1).getD j 0 = 1
        rw [if_pos rfl, setRangeI_getD _ _ _ _ _ (by omega), if_pos ⟨hj1, hj2⟩]
  · intro marks h
    obtain ⟨l1, l2, rfl⟩ := List.append_of_mem hp
    unfold anomaly_news_markup at h
    rw [List.foldlM_append] at h
    cases h1 : List.foldlM (processNews val anomaly false) (invalidPass val anomaly (-1)) l1 with
    | none =>
      simp only [h1, Option.bind_eq_bind, Option.none_bind] at h
      cases h
    | some m1 =>
      simp only [h1, Option.bind_eq_bind, Option.some_bind] at h
      rw [List.foldlM_cons, processNews_hit val anomaly p fa hval hfa false m1] at h
      simp only [Option.bind_eq_bind, Option.some_bind] at h
      have hm1 : m1.length = val.length := by
        rw [foldlM_processNews_length val anomaly false l1 _ m1 h1, invalidPass_length]
      refine foldlM_processNews_preserve_one val anomaly false l2 _ marks h fa ?_ ?_
      · show fa < (if false then setRangeI m1 ((fa : ℤ) - 7) ((fa : ℤ) + 5) 1
          else m1.set fa 1).length
        rw [if_neg (by simp), List.length_set]
        omega
      · show (if false then setRangeI m1 ((fa : ℤ) - 7) ((fa : ℤ) + 5) 1
          else m1.set fa 1).getD fa 0 = 1
        rw [if_neg (by simp), List.getD_eq_getElem?_getD, List.getElem?_set, if_pos rfl,
          if_pos (by omega)]
        rfl
  · intro marks h j hjn hjfa
    unfold anomaly_news_markup at h
    rw [List.foldlM_cons, processNews_hit val anomaly p fa hval hfa false _] at h
    simp only [Option.bind_eq_bind, Option.some_bind, List.foldlM_nil, Option.pure_def] at h
    injection h with h
    rw [← h]
    show ((invalidPass val anomaly (-1)).set fa 1).getD j 0 ≠ 1
    rw [List.getD_eq_getElem?_getD, List.getElem?_set, if_neg (by omega),
      ← List.getD_eq_getElem?_getD]
    rcases invalidPass_getD_mem val anomaly (-1) j hjn with h2 | h2 <;> rw [h2] <;> decide

/-- Witness for `markup_news_marking` at a concrete input. -/
theorem markup_news_marking_witness :
    (List.replicate 8 (1 : ℤ)).getD 2 0 = 1 :=
  (markup_news_marking (List.replicate 8 (some (1:ℚ)))
    [some false, some false, some false, some false,
     some true, some false, some false, some false] [5] 5 4
    (by decide) (by decide) (by decide)).2.1 (List.replicate 8 1) (by decide) 2
    (by decide) (by decide) (by decide)

/-- Witness for `processNews_skip_missing` at a concrete input. -/
theorem processNews_skip_missing_witness :
    processNews [none] [some false] true [5] 0 = some [5] :=
  processNews_skip_missing [none] [some false] true [5] 0 ⟨0, by decide, rfl⟩

end PnD
